import Mathlib

/-!
Verification development for the dit task/time tracker: a shallow embedding of
the record store + index subsystem (`src/repository/toml.rs`, `src/models.rs`,
`src/commands.rs`, `src/utils/time.rs`) together with theorems about the
spec-level claims.

Modelling conventions:
* `Timestamp` (chrono `DateTime<FixedOffset>`) is modelled as an integer
  number of seconds; comparison and subtraction of chrono datetimes compare
  the underlying instants, which the integer models exactly.  The stored
  textual format `%F %T %z` has whole-second resolution, matching the model.
* `Duration` (chrono) is an integer number of seconds (`num_seconds`).
* Strings serialised to the index file are modelled as `List Char`.
* The file system under the storage root is a finite map from identifier to
  file content, where the identifier is the path with the directory prefix
  and the `.toml` extension stripped (exactly the bijection implemented by
  `Repo::path` / `Repo::id_from_full_path`).  The persisted index lives at
  identifier `".index"`, as in `Repo::save_index` / `Repo::load_index`.
* A file's content is either a task record or an index image.  The TOML text
  of an index image never deserialises as `TaskData` (it has no top-level
  string `title` key), so reading an index file as a task is modelled as a
  parse failure.
* `fs::write` failures are modelled by an oracle `bad : String → Bool` on
  identifiers: a failed write leaves the file unchanged and the operation
  reports an error.
* `HashMap` contents are modelled as an association list with unique keys
  (`insert` replaces in place, `remove` deletes); Rust's hash iteration
  order is arbitrary, the list order stands in for it.
* `walkdir` traversal order is unspecified; `list_ids` is modelled as the
  key list of the file map.  The theorems proved do not depend on the order.
* Rust's stable `Vec::sort` is modelled by `List.insertionSort`, which is
  also stable and shares the observable guarantees (sortedness and
  permutation of the input).
-/

namespace Dit

/-- Seconds since an arbitrary epoch; models chrono `DateTime<FixedOffset>`. -/
abbrev Timestamp := Int

/-- Seconds; models chrono `Duration`. -/
abbrev Duration := Int

/-! ### `src/models.rs`: LogEntry, TaskData, Task -/

/-- `LogEntry { start, end }` from `src/models.rs`.  The `end` field is named
`stop` because `end` is reserved in Lean. -/
structure LogEntry where
  start : Timestamp
  stop : Option Timestamp
  deriving Repr, DecidableEq

/-- `LogEntry::new(start)`. -/
def LogEntry.new (start : Timestamp) : LogEntry := ⟨start, none⟩

/-- `LogEntry::is_open`. -/
def LogEntry.is_open (e : LogEntry) : Bool := e.stop.isNone

/-- `LogEntry::is_closed`. -/
def LogEntry.is_closed (e : LogEntry) : Bool := e.stop.isSome

/-- `LogEntry::effort`; `now` is the ambient wall clock used for an open
entry. -/
def LogEntry.effort (now : Timestamp) (e : LogEntry) : Duration :=
  match e.stop with
  | some t => t - e.start
  | none => now - e.start

/-- `impl Ord for LogEntry`: comparison is on `start` alone. -/
def logEntryCmp (a b : LogEntry) : Ordering := compare a.start b.start

/-- `impl PartialEq for LogEntry`: equality is on `start` alone. -/
def logEntryEq (a b : LogEntry) : Bool := a.start == b.start

/-- The non-strict order induced by `impl Ord for LogEntry`, used by the
sorts. -/
def logLe (a b : LogEntry) : Prop := a.start ≤ b.start

instance : DecidableRel logLe := fun a b => inferInstanceAs (Decidable (a.start ≤ b.start))

instance : IsTotal LogEntry logLe := ⟨fun a b => Int.le_total a.start b.start⟩

instance : IsTrans LogEntry logLe := ⟨fun _ _ _ h h' => le_trans h h'⟩

/-- The descending order used by `get_status` / `get_listing` /
`sorted_index` (`y.log_entry.cmp(&x.log_entry)`). -/
def logGe (a b : LogEntry) : Prop := b.start ≤ a.start

instance : DecidableRel logGe := fun a b => inferInstanceAs (Decidable (b.start ≤ a.start))

instance : IsTotal LogEntry logGe := ⟨fun a b => Int.le_total b.start a.start⟩

instance : IsTrans LogEntry logGe := ⟨fun _ _ _ h h' => le_trans h' h⟩

/-- `data.log.sort()` in `Repo::load`: stable sort by the `Ord` instance,
i.e. ascending by `start`. -/
def sortLog (l : List LogEntry) : List LogEntry := List.insertionSort logLe l

/-- `TaskData { title, log }`. -/
structure TaskData where
  title : String
  log : List LogEntry
  deriving Repr, DecidableEq

/-- `Task { id, data }`. -/
structure Task where
  id : String
  data : TaskData
  deriving Repr, DecidableEq

/-- `Task::total_effort` (`src/repository/toml.rs`); `now` is the wall clock
read by `LogEntry::effort` for open entries. -/
def Task.total_effort (now : Timestamp) (t : Task) : Duration :=
  t.data.log.foldl (fun a x => a + x.effort now) 0

/-! ### `src/repository/toml.rs`: index and file store -/

/-- `IndexEntry { title, log_entry, total_effort }`. -/
structure IndexEntry where
  title : String
  log_entry : LogEntry
  total_effort : Duration
  deriving Repr, DecidableEq

/-- `IndexEntry::new(task, entry)`; `now` as in `Task.total_effort`. -/
def IndexEntry.new (now : Timestamp) (task : Task) (entry : LogEntry) : IndexEntry :=
  ⟨task.data.title, entry, task.total_effort now⟩

/-- In-memory index: `HashMap<String, IndexEntry>` contents as an
association list with unique keys. -/
abbrev Index := List (String × IndexEntry)

/-- Association-list insert-or-replace; models `HashMap::insert` (and the
file map update performed by a successful `fs::write`). -/
def alInsert {β : Type} : List (String × β) → String → β → List (String × β)
  | [], k, v => [(k, v)]
  | (k', v') :: t, k, v => if k' = k then (k, v) :: t else (k', v') :: alInsert t k v

/-- Association-list remove; models `HashMap::remove`. -/
def alRemove {β : Type} : List (String × β) → String → List (String × β)
  | [], _ => []
  | (k', v') :: t, k => if k' = k then t else (k', v') :: alRemove t k

/-- Association-list lookup. -/
def alLookup {β : Type} (l : List (String × β)) (k : String) : Option β :=
  (l.find? (fun p => p.1 == k)).map (·.2)

/-- Content of one `.toml` file under the storage root. -/
inductive FileContent where
  | task (d : TaskData)
  | index (m : Index)
  deriving Repr, DecidableEq

/-- Whole mutable state of one `Repo` invocation: the files on disk, the
in-memory index, the write-failure oracle, and the ambient wall clock
(`utils::time::now`) used for effort computation. -/
structure Sys where
  files : List (String × FileContent)
  index : Index
  bad : String → Bool
  wallClock : Timestamp

/-- Result of an operation: success or error, with the state it leaves
behind. -/
inductive Res where
  | ok (s : Sys)
  | err (s : Sys)

/-- Whether a result is a success. -/
def Res.isOk : Res → Bool
  | .ok _ => true
  | .err _ => false

/-- Whether a result is an error. -/
def Res.isErr : Res → Bool
  | .ok _ => false
  | .err _ => true

/-- The state a result leaves behind (on success or on error). -/
def Res.state : Res → Sys
  | .ok s => s
  | .err s => s

/-- The final state of a successful result. -/
def Res.toOption : Res → Option Sys
  | .ok s => some s
  | .err _ => none

/-- `write(&self.path(id), d)`: fails (leaving the file unchanged) iff the
oracle marks the path bad. -/
def fsWriteOp (s : Sys) (id : String) (c : FileContent) : Option Sys :=
  if s.bad id then none
  else some { s with files := alInsert s.files id c }

/-- `read` of a task record (`Repo::load` body): missing file or an index
image at that path is a read/parse error. -/
def readTask (s : Sys) (id : String) : Option TaskData :=
  match alLookup s.files id with
  | some (.task d) => some d
  | _ => none

/-- `Repo::exists`. -/
def exists_ (s : Sys) (id : String) : Bool := (alLookup s.files id).isSome

/-- `Repo::load`: read, then sort the log ascending by `start`. -/
def load (s : Sys) (id : String) : Option Task :=
  (readTask s id).map (fun d => ⟨id, ⟨d.title, sortLog d.log⟩⟩)

/-- `Repo::update_index`: upsert from the last log entry, or remove when the
log is empty.  Touches only the in-memory index. -/
def update_index (s : Sys) (task : Task) : Sys :=
  match task.data.log.getLast? with
  | some entry => { s with index := alInsert s.index task.id (IndexEntry.new s.wallClock task entry) }
  | none => { s with index := alRemove s.index task.id }

/-- `Repo::save_index`: persist the in-memory index at `".index"`. -/
def save_index (s : Sys) : Option Sys :=
  fsWriteOp s ".index" (.index s.index)

/-- `Repo::save`: write the record, then update the in-memory index, then
persist the index.  Each write can fail; the error carries the state left
behind at that point. -/
def save (s : Sys) (task : Task) : Res :=
  match fsWriteOp s task.id (.task task.data) with
  | none => .err s
  | some s1 =>
    let s2 := update_index s1 task
    match save_index s2 with
    | none => .err s2
    | some s3 => .ok s3

/-- `Repo::clock_in`: load, append a fresh open entry, save.  No global
Active check happens here. -/
def clock_in (s : Sys) (id : String) (now : Timestamp) : Res :=
  match load s id with
  | none => .err s
  | some t => save s { t with data := { t.data with log := t.data.log ++ [LogEntry.new now] } }

/-- `Repo::clock_out`: close the last entry; error if it is already closed
or the log is empty. -/
def clock_out (s : Sys) (id : String) (now : Timestamp) : Res :=
  match load s id with
  | none => .err s
  | some t =>
    match t.data.log.getLast? with
    | none => .err s
    | some e =>
      match e.stop with
      | some _ => .err s
      | none =>
        save s { t with data := { t.data with log := t.data.log.dropLast ++ [⟨e.start, some now⟩] } }

/-- `Repo::un_clock_in`: pop the last entry if it is open; error otherwise. -/
def un_clock_in (s : Sys) (id : String) : Res :=
  match load s id with
  | none => .err s
  | some t =>
    match t.data.log.getLast? with
    | none => .err s
    | some e =>
      match e.stop with
      | some _ => .err s
      | none => save s { t with data := { t.data with log := t.data.log.dropLast } }

/-- `Repo::un_clock_out`: reopen the last entry if it is closed; error
otherwise. -/
def un_clock_out (s : Sys) (id : String) : Res :=
  match load s id with
  | none => .err s
  | some t =>
    match t.data.log.getLast? with
    | none => .err s
    | some e =>
      match e.stop with
      | some _ => save s { t with data := { t.data with log := t.data.log.dropLast ++ [⟨e.start, none⟩] } }
      | none => .err s

/-- `Repo::is_clocked_in`: some key holding an open index entry. -/
def is_clocked_in (s : Sys) : Option String :=
  (s.index.find? (fun p => p.2.log_entry.is_open)).map (·.1)

/-- Open-entry count of an index, as folded by `Repo::check_index`. -/
def countOpen (idx : Index) : Nat :=
  (idx.filter (fun p => p.2.log_entry.is_open)).length

/-- `Repo::check_index`: accept iff at most one entry is open. -/
def check_index (idx : Index) : Bool := countOpen idx ≤ 1

/-- `Repo::sorted_index`: index pairs sorted descending by `log_entry`. -/
def sorted_index (s : Sys) : List (String × IndexEntry) :=
  List.insertionSort (fun a b => logGe a.2.log_entry b.2.log_entry) s.index

/-- `Repo::list_ids`: every `.toml` file under the root, as identifiers.
This enumerates the persisted index file (id `".index"`) too, since the walk
filters only on the extension. -/
def list_ids (s : Sys) : List String := s.files.map (·.1)

/-- The loop body of `Repo::rebuild_index`: load each id (aborting on the
first failure) and re-apply `update_index`, then persist the index. -/
def rebuildGo (ids : List String) (s : Sys) : Res :=
  match ids with
  | [] =>
    match save_index s with
    | none => .err s
    | some s' => .ok s'
  | id :: rest =>
    match load s id with
    | none => .err s
    | some t => rebuildGo rest (update_index s t)

/-- `Repo::rebuild_index`: clear the in-memory index, reload every record,
persist. -/
def rebuild_index (s : Sys) : Res :=
  let s0 := { s with index := [] }
  rebuildGo (list_ids s0) s0

/-! ### `src/commands.rs`: the guarded command layer -/

/-- `Dit::do_work_on`: reject a missing record, reject when any task is
Active, then `clock_in`. -/
def do_work_on (s : Sys) (id : String) (now : Timestamp) : Res :=
  if exists_ s id = false then .err s
  else
    match is_clocked_in s with
    | some _ => .err s
    | none => clock_in s id now

/-- `Dit::do_halt`: `clock_out` the Active task, if any. -/
def do_halt (s : Sys) (now : Timestamp) : Res :=
  match is_clocked_in s with
  | some id => clock_out s id now
  | none => .err s

/-- `Dit::do_cancel`: `un_clock_in` the Active task, if any. -/
def do_cancel (s : Sys) : Res :=
  match is_clocked_in s with
  | some id => un_clock_in s id
  | none => .err s

/-! ### Sequencing helpers for the claims -/

/-- One call to a clock primitive of `Repo`. -/
inductive Prim where
  | cin (id : String) (ts : Timestamp)
  | cout (id : String) (ts : Timestamp)
  | ucin (id : String)
  | ucout (id : String)

/-- Apply one primitive. -/
def applyPrim (s : Sys) : Prim → Res
  | .cin id ts => clock_in s id ts
  | .cout id ts => clock_out s id ts
  | .ucin id => un_clock_in s id
  | .ucout id => un_clock_out s id

/-- Run a sequence of primitives, requiring every call to succeed. -/
def runPrims (s : Sys) : List Prim → Option Sys
  | [] => some s
  | p :: rest =>
    match applyPrim s p with
    | .ok s' => runPrims s' rest
    | .err _ => none

/-- One guarded command of the `Dit` layer. -/
inductive Cmd where
  | workOn (id : String) (ts : Timestamp)
  | halt (ts : Timestamp)
  | cancel

/-- Apply one guarded command. -/
def applyCmd (s : Sys) : Cmd → Res
  | .workOn id ts => do_work_on s id ts
  | .halt ts => do_halt s ts
  | .cancel => do_cancel s

/-- Run a sequence of guarded commands, requiring every call to succeed. -/
def runCmds (s : Sys) : List Cmd → Option Sys
  | [] => some s
  | c :: rest =>
    match applyCmd s c with
    | .ok s' => runCmds s' rest
    | .err _ => none

/-- One repository operation (used to quantify over "any operation"). -/
inductive Op where
  | save (t : Task)
  | cin (id : String) (ts : Timestamp)
  | cout (id : String) (ts : Timestamp)
  | ucin (id : String)
  | ucout (id : String)
  | rebuild

/-- Apply one repository operation. -/
def applyOp (s : Sys) : Op → Res
  | .save t => save s t
  | .cin id ts => clock_in s id ts
  | .cout id ts => clock_out s id ts
  | .ucin id => un_clock_in s id
  | .ucout id => un_clock_out s id
  | .rebuild => rebuild_index s

/-! ### `src/repository/toml.rs`: the listing query -/

/-- `ListItem { id, title, log_entry }` (`src/models.rs`). -/
structure ListItem where
  id : String
  title : String
  log_entry : LogEntry
  deriving Repr, DecidableEq

/-- `ListItem::new`. -/
def ListItem.new (t : Task) (e : LogEntry) : ListItem := ⟨t.id, t.data.title, e⟩

/-- The `is_after` closure of `get_listing`: `after.map(|a| x >= a).unwrap_or(true)`. -/
def is_after (after : Option Timestamp) (x : Timestamp) : Bool :=
  match after with
  | some a => decide (a ≤ x)
  | none => true

/-- The `is_before` closure of `get_listing`: `before.map(|b| x <= b).unwrap_or(true)`. -/
def is_before (before : Option Timestamp) (x : Timestamp) : Bool :=
  match before with
  | some b => decide (x ≤ b)
  | none => true

/-- `collect::<Result<Vec<_>, _>>()` over `load`: all tasks, or the first
error. -/
def loadAll (s : Sys) : List String → Option (List Task)
  | [] => some []
  | id :: rest =>
    match load s id with
    | none => none
    | some t => (loadAll s rest).map (t :: ·)

/-- The per-task row builder inside `get_listing`: one row per log entry
whose `start` passes both bound filters. -/
def taskRows (after before : Option Timestamp) (t : Task) : List ListItem :=
  (t.data.log.filter (fun e => is_after after e.start && is_before before e.start)).map
    (fun e => ListItem.new t e)

/-- `Repo::get_listing`: pre-filter the sorted index on the last entry's
`start`, load every surviving record (propagating the first failure), emit
the filtered rows, sort descending by `log_entry`. -/
def get_listing (s : Sys) (after before : Option Timestamp) : Option (List ListItem) :=
  let pre := (sorted_index s).filter (fun kv => is_after after kv.2.log_entry.start)
  (loadAll s (pre.map (·.1))).map
    (fun tasks =>
      List.insertionSort (fun a b => logGe a.log_entry b.log_entry)
        (tasks.flatMap (taskRows after before)))

/-- Modelled from the claim's words: one row for each log entry — of any
task reachable through the index pre-filter on the most recent entry's
start — whose start lies within the bounds. -/
def claimListingRows (s : Sys) (after before : Option Timestamp) : List ListItem :=
  (s.index.filter (fun kv => is_after after kv.2.log_entry.start)).flatMap
    (fun kv =>
      match load s kv.1 with
      | some t => taskRows after before t
      | none => [])

/-- Forget the `end` timestamp of an entry (used to state that the sorts
ignore it). -/
def eraseStop (e : LogEntry) : LogEntry := ⟨e.start, none⟩

instance : IsTotal ListItem (fun a b => logGe a.log_entry b.log_entry) :=
  ⟨fun a b => Int.le_total b.log_entry.start a.log_entry.start⟩

instance : IsTrans ListItem (fun a b => logGe a.log_entry b.log_entry) :=
  ⟨fun _ _ _ h h' => le_trans h' h⟩

/-! ### `src/utils/time.rs`: the duration codec used by the index file

`impl Nice for Duration` renders `num_seconds` as `{hours}h{mins}min{secs}s`
with zero-valued pieces omitted and `"0s"` for zero; `parse_duration`
matches the anchored regex
`^((?P<d>[+-]?\d+)d)?((?P<h>[+-]?\d+)h)?((?P<min>[+-]?\d+)min)?((?P<s>[+-]?\d+)s)?$`
and sums `i(h)*3600 + i(min)*60 + i(s)` — the `d` capture is never added
in, and `i` converts each present capture with
`i32::from_str_radix(..).unwrap()`, so the conversion aborts beyond `i32`
range and the sum itself is `i32` arithmetic.

Each optional group is `[+-]?` digits followed by a letter suffix; since
every suffix begins with a letter and the digit run is maximal, the greedy
left-to-right group matching below coincides with the regex semantics (a
group that matches locally can never be skipped in a successful overall
match, because its leading digits match no later group and the anchors
forbid leftovers). -/

/-- Little-endian decimal digits of `k` (with fuel for structural
recursion); models the digits emitted by Rust's integer `Display`. -/
def natCharsAux : Nat → Nat → List Char
  | 0, _ => []
  | _ + 1, 0 => []
  | fuel + 1, k + 1 => Nat.digitChar ((k + 1) % 10) :: natCharsAux fuel ((k + 1) / 10)

/-- Decimal rendering of a nonzero natural (most significant digit
first). -/
def natChars (k : Nat) : List Char := (natCharsAux k k).reverse

/-- Decimal rendering of a nonzero integer, `-` sign included: Rust
`format!("{}", x)`. -/
def intChars (x : Int) : List Char :=
  if x < 0 then '-' :: natChars x.natAbs else natChars x.natAbs

/-- `format_duration_piece`: empty for a zero piece, otherwise the number
followed by its unit suffix. -/
def format_duration_piece (x : Int) (suffix : List Char) : List Char :=
  if x = 0 then [] else intChars x ++ suffix

/-- `impl Nice for Duration` (`src/utils/time.rs`): `i64` division and
remainder truncate toward zero, i.e. `Int.tdiv` / `Int.tmod`. -/
def nice_duration (n : Int) : List Char :=
  if n = 0 then ['0', 's']
  else
    format_duration_piece (n.tdiv 3600) ['h'] ++
      format_duration_piece ((n.tmod 3600).tdiv 60) ['m', 'i', 'n'] ++
      format_duration_piece ((n.tmod 3600).tmod 60) ['s']

/-- Numeric value of a run of decimal digit characters (most significant
first). -/
def natFromDigits (ds : List Char) : Nat :=
  ds.foldl (fun a c => 10 * a + (c.toNat - 48)) 0

/-- One optional regex group `((?P<x>[+-]?\d+)suffix)?`: on a match, the
signed value and the remaining input; otherwise `0` and the input
unconsumed. -/
def pgroup (suffix : List Char) (cs : List Char) : Int × List Char :=
  let sgn : Int := if cs.head? = some '-' then -1 else 1
  let cs1 : List Char :=
    if cs.head? = some '-' then cs.tail
    else if cs.head? = some '+' then cs.tail
    else cs
  let ds := cs1.takeWhile Char.isDigit
  let rest := cs1.dropWhile Char.isDigit
  if ds = [] then (0, cs)
  else if suffix.isPrefixOf rest then (sgn * (natFromDigits ds : Int), rest.drop suffix.length)
  else (0, cs)

/-- Result of `parse_duration`: `noMatch` is Rust's `None` (the regex did
not match), `abort` is the `i32::from_str_radix(..).unwrap()` panic on a
matched capture whose value does not fit in `i32`, and `seconds n` is
`Some(Duration::seconds(n))`. -/
inductive DurationParse where
  | noMatch
  | abort
  | seconds (n : Int)
  deriving Repr, DecidableEq

/-- The helper `i` of `src/utils/time.rs` applied to a matched capture of
mathematical value `v`: `i32::from_str_radix(capture, 10).unwrap()`.
`from_str_radix` returns `Err` when the value is outside `i32` range, so
the `unwrap` aborts there (the `none` case); an absent capture never
reaches the conversion and contributes `0`. -/
def toI32 (v : Int) : Option Int :=
  if v < -2147483648 ∨ 2147483647 < v then none else some v

/-- Two's-complement wrap-around at 32 bits: the value an `i32` addition
or multiplication produces in a release build when it overflows. -/
def wrap32 (x : Int) : Int := (x + 2147483648) % 4294967296 - 2147483648

/-- `parse_duration` (`src/utils/time.rs`): anchored match of the four
groups; the captures named `h`, `min`, `s` (and only those — the `d`
capture is never converted nor added in, exactly as in the source) go
through `i32::from_str_radix(..).unwrap()`, and the sum
`i(h)*3600 + i(min)*60 + i(s)` is computed in `i32`, modelled with
two's-complement wrap-around at every step (release-build semantics; a
debug build would abort on an overflowing step instead, but on the inputs
covered by the round-trip theorem below no step overflows, so the two
builds agree there).  The result is then widened by `i64::from` and
returned as `Duration::seconds`, which the `seconds` constructor models. -/
def parse_duration (cs : List Char) : DurationParse :=
  let p1 := pgroup ['d'] cs
  let p2 := pgroup ['h'] p1.2
  let p3 := pgroup ['m', 'i', 'n'] p2.2
  let p4 := pgroup ['s'] p3.2
  if p4.2 = [] then
    match toI32 p2.1, toI32 p3.1, toI32 p4.1 with
    | some h, some m, some s =>
      .seconds (wrap32 (wrap32 (wrap32 (h * 3600) + wrap32 (m * 60)) + s))
    | _, _, _ => .abort
  else .noMatch

/-- Modelled from the spec: the encoding the claim describes, a duration
expression over unit suffixes `d`, `h`, `min`, `s` with zero-valued units
omitted and `"0s"` when the total is zero. -/
def claim_nice_duration (n : Int) : List Char :=
  if n = 0 then ['0', 's']
  else
    format_duration_piece (n.tdiv 86400) ['d'] ++
      format_duration_piece ((n.tmod 86400).tdiv 3600) ['h'] ++
        format_duration_piece (((n.tmod 86400).tmod 3600).tdiv 60) ['m', 'i', 'n'] ++
          format_duration_piece (((n.tmod 86400).tmod 3600).tmod 60) ['s']

/-! ### Lemmas about the duration codec -/

theorem natCharsAux_eq (fuel : Nat) : ∀ k : Nat, k ≤ fuel →
    natCharsAux fuel k = (Nat.digits 10 k).map Nat.digitChar := by
  induction fuel with
  | zero =>
    intro k hk
    interval_cases k
    simp [natCharsAux]
  | succ n ih =>
    intro k hk
    match k with
    | 0 => simp [natCharsAux]
    | k + 1 =>
      rw [natCharsAux, Nat.digits_def' (by norm_num : (1 : Nat) < 10) (Nat.succ_pos k),
        List.map_cons]
      congr 1
      have hlt : (k + 1) / 10 < k + 1 := Nat.div_lt_self (Nat.succ_pos k) (by norm_num)
      exact ih _ (by omega)

theorem natChars_eq (k : Nat) :
    natChars k = ((Nat.digits 10 k).map Nat.digitChar).reverse := by
  rw [natChars, natCharsAux_eq k k le_rfl]

theorem digitChar_facts :
    ∀ d : Nat, d < 10 → (Nat.digitChar d).isDigit = true ∧ (Nat.digitChar d).toNat - 48 = d := by
  decide

theorem natChars_digits {k : Nat} : ∀ c ∈ natChars k, c.isDigit = true := by
  rw [natChars_eq]
  intro c hc
  rw [List.mem_reverse, List.mem_map] at hc
  obtain ⟨d, hd, rfl⟩ := hc
  exact (digitChar_facts d (Nat.digits_lt_base (by norm_num) hd)).1

theorem natChars_ne_nil {k : Nat} (h : k ≠ 0) : natChars k ≠ [] := by
  rw [natChars_eq]
  simp [Nat.digits_ne_nil_iff_ne_zero.mpr h]

theorem foldr_digitChar_val (l : List Nat) (h : ∀ d ∈ l, d < 10) :
    l.foldr (fun d a => 10 * a + ((Nat.digitChar d).toNat - 48)) 0 = Nat.ofDigits 10 l := by
  induction l with
  | nil => simp [Nat.ofDigits_nil]
  | cons d tl ih =>
    rw [List.foldr_cons, ih (fun x hx => h x (List.mem_cons_of_mem d hx)),
      (digitChar_facts d (h d (List.mem_cons_self d tl))).2, Nat.ofDigits_cons]
    ring

theorem natFromDigits_natChars (k : Nat) : natFromDigits (natChars k) = k := by
  rw [natChars_eq, natFromDigits, List.foldl_reverse, List.foldr_map,
    foldr_digitChar_val _ (fun d hd => Nat.digits_lt_base (by norm_num) hd),
    Nat.ofDigits_digits]

theorem takeWhile_append_cons {p : Char → Bool} (l : List Char) (c : Char) (r : List Char)
    (hl : ∀ x ∈ l, p x = true) (hc : p c = false) :
    (l ++ c :: r).takeWhile p = l ∧ (l ++ c :: r).dropWhile p = c :: r := by
  induction l with
  | nil => simp [List.takeWhile_cons, List.dropWhile_cons, hc]
  | cons a t ih =>
    have ha := hl a (List.mem_cons_self a t)
    have ht := ih (fun x hx => hl x (List.mem_cons_of_mem a hx))
    refine ⟨?_, ?_⟩ <;>
      simp [List.takeWhile_cons, List.dropWhile_cons, ha, ht.1, ht.2]

theorem isDigit_ne {c x : Char} (h : c.isDigit = true) (hx : x.isDigit = false) : c ≠ x := by
  intro e
  rw [e, hx] at h
  exact Bool.false_ne_true h

/-- A matching group: input is the rendered nonzero number, the group's own
suffix, then the rest. -/
theorem pgroup_hit (c : Char) (sfxt : List Char) (hc : c.isDigit = false)
    (x : Int) (hx : x ≠ 0) (rest : List Char) :
    pgroup (c :: sfxt) (intChars x ++ (c :: sfxt) ++ rest) = (x, rest) := by
  have hne : x.natAbs ≠ 0 := by omega
  obtain ⟨d, ds, hds⟩ : ∃ d ds, natChars x.natAbs = d :: ds := by
    cases h : natChars x.natAbs with
    | nil => exact absurd h (natChars_ne_nil hne)
    | cons d ds => exact ⟨d, ds, rfl⟩
  have hdig : ∀ y ∈ d :: ds, Char.isDigit y = true := by
    rw [← hds]; exact fun y hy => natChars_digits y hy
  have hd : d.isDigit = true := hdig d (List.mem_cons_self d ds)
  have hsplit := takeWhile_append_cons (p := Char.isDigit) (d :: ds) c (sfxt ++ rest) hdig hc
  have hpre : (c :: sfxt).isPrefixOf (c :: (sfxt ++ rest)) = true := by
    rw [ List.isPrefixOf_iff_prefix]
    exact ⟨rest, by simp⟩
  have hdrop : (c :: (sfxt ++ rest)).drop (c :: sfxt).length = rest := by
    have : c :: (sfxt ++ rest) = (c :: sfxt) ++ rest := by simp
    rw [this, List.drop_left]
  have hval : (natFromDigits (d :: ds) : Int) = (x.natAbs : Int) := by
    rw [← hds, natFromDigits_natChars]
  rcases lt_or_gt_of_ne hx with hneg | hpos
  · -- negative: a leading '-' sign
    have hx' : intChars x = '-' :: natChars x.natAbs := by
      rw [intChars, if_pos hneg]
    rw [hx', hds]
    rw [show (('-' :: (d :: ds)) ++ (c :: sfxt) ++ rest)
        = '-' :: ((d :: ds) ++ c :: (sfxt ++ rest)) by simp]
    rw [pgroup]
    simp only [List.head?_cons, List.tail_cons]
    simp only [show ((some '-' = some '-')) = True by simp, if_true]
    rw [hsplit.1, hsplit.2]
    simp only [hpre, if_true, reduceCtorEq, ite_false, hdrop, hval]
    refine Prod.ext ?_ rfl
    simp only
    omega
  · -- positive: no sign
    have hx' : intChars x = natChars x.natAbs := by
      rw [intChars, if_neg (by omega)]
    rw [hx', hds]
    have hdm : (d : Char) ≠ '-' := isDigit_ne hd (by decide)
    have hdp : (d : Char) ≠ '+' := isDigit_ne hd (by decide)
    rw [show ((d :: ds) ++ (c :: sfxt) ++ rest)
        = d :: (ds ++ c :: (sfxt ++ rest)) by simp]
    rw [pgroup]
    simp only [List.head?_cons, Option.some.injEq, hdm, hdp, if_false]
    rw [show d :: (ds ++ c :: (sfxt ++ rest)) = (d :: ds) ++ c :: (sfxt ++ rest) by simp]
    rw [hsplit.1, hsplit.2]
    simp only [hpre, if_true, reduceCtorEq, ite_false, hdrop, hval]
    refine Prod.ext ?_ rfl
    simp only
    omega

/-- A skipped group: input starts with a rendered nonzero number whose
suffix letter is a different unit, so the group matches nothing and
consumes nothing. -/
theorem pgroup_miss (c c' : Char) (sfxt : List Char) (hc' : c'.isDigit = false)
    (hne : c' ≠ c) (x : Int) (hx : x ≠ 0) (r' : List Char) :
    pgroup (c :: sfxt) (intChars x ++ c' :: r') = (0, intChars x ++ c' :: r') := by
  have hne0 : x.natAbs ≠ 0 := by omega
  obtain ⟨d, ds, hds⟩ : ∃ d ds, natChars x.natAbs = d :: ds := by
    cases h : natChars x.natAbs with
    | nil => exact absurd h (natChars_ne_nil hne0)
    | cons d ds => exact ⟨d, ds, rfl⟩
  have hdig : ∀ y ∈ d :: ds, Char.isDigit y = true := by
    rw [← hds]; exact fun y hy => natChars_digits y hy
  have hd : d.isDigit = true := hdig d (List.mem_cons_self d ds)
  have hsplit := takeWhile_append_cons (p := Char.isDigit) (d :: ds) c' r' hdig hc'
  have hnopre : (c :: sfxt).isPrefixOf (c' :: r') = false := by
    rw [Bool.eq_false_iff]
    intro h
    rw [ List.isPrefixOf_iff_prefix] at h
    obtain ⟨t, ht⟩ := h
    rw [List.cons_append] at ht
    exact hne (List.cons.injEq .. ▸ ht).1.symm
  rcases lt_or_gt_of_ne hx with hneg | hpos
  · have hx' : intChars x = '-' :: natChars x.natAbs := by
      rw [intChars, if_pos hneg]
    rw [hx', hds]
    rw [show ('-' :: (d :: ds)) ++ c' :: r' = '-' :: ((d :: ds) ++ c' :: r') by simp, pgroup]
    simp only [List.head?_cons, List.tail_cons]
    simp only [show ((some '-' = some '-')) = True by simp, if_true]
    rw [hsplit.1, hsplit.2]
    simp only [hnopre, reduceCtorEq, ite_false, Bool.false_eq_true, if_false]
  · have hx' : intChars x = natChars x.natAbs := by
      rw [intChars, if_neg (by omega)]
    rw [hx', hds]
    have hdm : (d : Char) ≠ '-' := isDigit_ne hd (by decide)
    have hdp : (d : Char) ≠ '+' := isDigit_ne hd (by decide)
    rw [show ((d :: ds)) ++ c' :: r' = d :: (ds ++ c' :: r') by simp, pgroup]
    simp only [List.head?_cons, Option.some.injEq, hdm, hdp, if_false]
    rw [show d :: (ds ++ c' :: r') = (d :: ds) ++ c' :: r' by simp]
    rw [hsplit.1, hsplit.2]
    simp only [hnopre, reduceCtorEq, ite_false, Bool.false_eq_true, if_false]

theorem pgroup_nil (sfx : List Char) : pgroup sfx [] = (0, []) := by
  simp [pgroup]

theorem pgroup_hit_h (x : Int) (hx : x ≠ 0) (rest : List Char) :
    pgroup ['h'] (intChars x ++ 'h' :: rest) = (x, rest) := by
  have := pgroup_hit 'h' [] (by decide) x hx rest
  simpa using this

theorem pgroup_hit_min (x : Int) (hx : x ≠ 0) (rest : List Char) :
    pgroup ['m', 'i', 'n'] (intChars x ++ 'm' :: 'i' :: 'n' :: rest) = (x, rest) := by
  have := pgroup_hit 'm' ['i', 'n'] (by decide) x hx rest
  simpa using this

theorem pgroup_hit_s (x : Int) (hx : x ≠ 0) (rest : List Char) :
    pgroup ['s'] (intChars x ++ 's' :: rest) = (x, rest) := by
  have := pgroup_hit 's' [] (by decide) x hx rest
  simpa using this

theorem neg_tmod_eq (a b : Int) : (-a).tmod b = -(a.tmod b) := by
  rw [Int.tmod_def, Int.tmod_def, Int.neg_tdiv]
  ring

theorem tmod_gt_neg (a : Int) {b : Int} (H : 0 < b) : -b < a.tmod b := by
  rcases le_or_lt 0 a with ha | ha
  · have h0 := Int.tmod_nonneg b ha
    linarith
  · have h1 := Int.tmod_lt_of_pos (-a) H
    rw [neg_tmod_eq] at h1
    linarith

theorem toI32_zero : toI32 0 = some 0 := by decide

/-- C8 (amended): the index encoder `nice_duration` uses only the `h`,
`min`, `s` unit suffixes (days are folded into hours), omits zero-valued
pieces, writes `"0s"` for zero, and for every total that fits in `i32`
seconds — the range on which the reader's `i32` capture conversion and
`i32` sum are exact — `parse_duration` maps the emitted string back to the
same number of seconds.  (Beyond that range the reader's `i32` sum
overflows even on encoder output, and a `d` component is accepted by the
regex but its value dropped, so general `d`-expressions do not round-trip;
see the counterexample.) -/
theorem parse_nice_duration (n : Int) (hlo : -2147483648 ≤ n)
    (hhi : n ≤ 2147483647) : parse_duration (nice_duration n) = .seconds n := by
  by_cases h0 : n = 0
  · subst h0; decide
  · have hdiv : 3600 * n.tdiv 3600 + n.tmod 3600 = n := Int.tdiv_add_tmod n 3600
    have hdiv2 : 60 * (n.tmod 3600).tdiv 60 + (n.tmod 3600).tmod 60 = n.tmod 3600 :=
      Int.tdiv_add_tmod _ 60
    have hr1 : n.tmod 3600 < 3600 := Int.tmod_lt_of_pos n (by norm_num)
    have hr2 : -3600 < n.tmod 3600 := tmod_gt_neg n (by norm_num)
    have hs1 : (n.tmod 3600).tmod 60 < 60 := Int.tmod_lt_of_pos _ (by norm_num)
    have hs2 : -60 < (n.tmod 3600).tmod 60 := tmod_gt_neg _ (by norm_num)
    simp only [nice_duration, if_neg h0]
    set h := n.tdiv 3600
    set m := (n.tmod 3600).tdiv 60
    set sec := (n.tmod 3600).tmod 60
    set r := n.tmod 3600
    clear_value sec m h r
    by_cases hH : h = 0 <;> by_cases hM : m = 0 <;> by_cases hS : sec = 0
    · omega
    · -- seconds only
      simp only [format_duration_piece, if_pos hH, if_pos hM, if_neg hS, List.nil_append]
      have e1 : pgroup ['d'] (intChars sec ++ 's' :: []) = (0, intChars sec ++ 's' :: []) :=
        pgroup_miss 'd' 's' [] (by decide) (by decide) sec hS []
      have e2 : pgroup ['h'] (intChars sec ++ 's' :: []) = (0, intChars sec ++ 's' :: []) :=
        pgroup_miss 'h' 's' [] (by decide) (by decide) sec hS []
      have e3 : pgroup ['m', 'i', 'n'] (intChars sec ++ 's' :: [])
          = (0, intChars sec ++ 's' :: []) :=
        pgroup_miss 'm' 's' ['i', 'n'] (by decide) (by decide) sec hS []
      have e4 : pgroup ['s'] (intChars sec ++ 's' :: []) = (sec, []) :=
        pgroup_hit_s sec hS []
      have hS32 : toI32 sec = some sec := by unfold toI32; rw [if_neg (by omega)]
      simp only [parse_duration, e1, e2, e3, e4, toI32_zero, hS32]
      simp only [if_true, ite_true, reduceIte]
      refine congrArg DurationParse.seconds ?_
      unfold wrap32
      omega
    · -- minutes only
      simp only [format_duration_piece, if_pos hH, if_neg hM, if_pos hS,
        List.nil_append, List.append_nil]
      have e1 : pgroup ['d'] (intChars m ++ 'm' :: 'i' :: 'n' :: [])
          = (0, intChars m ++ 'm' :: 'i' :: 'n' :: []) :=
        pgroup_miss 'd' 'm' [] (by decide) (by decide) m hM _
      have e2 : pgroup ['h'] (intChars m ++ 'm' :: 'i' :: 'n' :: [])
          = (0, intChars m ++ 'm' :: 'i' :: 'n' :: []) :=
        pgroup_miss 'h' 'm' [] (by decide) (by decide) m hM _
      have e3 : pgroup ['m', 'i', 'n'] (intChars m ++ 'm' :: 'i' :: 'n' :: []) = (m, []) :=
        pgroup_hit_min m hM []
      have hM32 : toI32 m = some m := by unfold toI32; rw [if_neg (by omega)]
      simp only [parse_duration, e1, e2, e3, pgroup_nil, toI32_zero, hM32]
      simp only [if_true, ite_true, reduceIte]
      refine congrArg DurationParse.seconds ?_
      unfold wrap32
      omega
    · -- minutes and seconds
      simp only [format_duration_piece, if_pos hH, if_neg hM, if_neg hS, List.nil_append,
        List.append_assoc, List.cons_append]
      have e1 : pgroup ['d'] (intChars m ++ 'm' :: 'i' :: 'n' :: (intChars sec ++ 's' :: []))
          = (0, intChars m ++ 'm' :: 'i' :: 'n' :: (intChars sec ++ 's' :: [])) :=
        pgroup_miss 'd' 'm' [] (by decide) (by decide) m hM _
      have e2 : pgroup ['h'] (intChars m ++ 'm' :: 'i' :: 'n' :: (intChars sec ++ 's' :: []))
          = (0, intChars m ++ 'm' :: 'i' :: 'n' :: (intChars sec ++ 's' :: [])) :=
        pgroup_miss 'h' 'm' [] (by decide) (by decide) m hM _
      have e3 : pgroup ['m', 'i', 'n']
          (intChars m ++ 'm' :: 'i' :: 'n' :: (intChars sec ++ 's' :: []))
          = (m, intChars sec ++ 's' :: []) :=
        pgroup_hit_min m hM _
      have e4 : pgroup ['s'] (intChars sec ++ 's' :: []) = (sec, []) :=
        pgroup_hit_s sec hS []
      have hM32 : toI32 m = some m := by unfold toI32; rw [if_neg (by omega)]
      have hS32 : toI32 sec = some sec := by unfold toI32; rw [if_neg (by omega)]
      simp only [parse_duration, e1, e2, e3, e4, toI32_zero, hM32, hS32]
      simp only [if_true, ite_true, reduceIte]
      refine congrArg DurationParse.seconds ?_
      unfold wrap32
      omega
    · -- hours only
      simp only [format_duration_piece, if_neg hH, if_pos hM, if_pos hS,
        List.nil_append, List.append_nil]
      have e1 : pgroup ['d'] (intChars h ++ 'h' :: []) = (0, intChars h ++ 'h' :: []) :=
        pgroup_miss 'd' 'h' [] (by decide) (by decide) h hH _
      have e2 : pgroup ['h'] (intChars h ++ 'h' :: []) = (h, []) :=
        pgroup_hit_h h hH []
      have hH32 : toI32 h = some h := by unfold toI32; rw [if_neg (by omega)]
      simp only [parse_duration, e1, e2, pgroup_nil, toI32_zero, hH32]
      simp only [if_true, ite_true, reduceIte]
      refine congrArg DurationParse.seconds ?_
      unfold wrap32
      omega
    · -- hours and seconds
      simp only [format_duration_piece, if_neg hH, if_pos hM, if_neg hS, List.nil_append,
        List.append_assoc, List.cons_append]
      have e1 : pgroup ['d'] (intChars h ++ 'h' :: (intChars sec ++ 's' :: []))
          = (0, intChars h ++ 'h' :: (intChars sec ++ 's' :: [])) :=
        pgroup_miss 'd' 'h' [] (by decide) (by decide) h hH _
      have e2 : pgroup ['h'] (intChars h ++ 'h' :: (intChars sec ++ 's' :: []))
          = (h, intChars sec ++ 's' :: []) :=
        pgroup_hit_h h hH _
      have e3 : pgroup ['m', 'i', 'n'] (intChars sec ++ 's' :: [])
          = (0, intChars sec ++ 's' :: []) :=
        pgroup_miss 'm' 's' ['i', 'n'] (by decide) (by decide) sec hS []
      have e4 : pgroup ['s'] (intChars sec ++ 's' :: []) = (sec, []) :=
        pgroup_hit_s sec hS []
      have hH32 : toI32 h = some h := by unfold toI32; rw [if_neg (by omega)]
      have hS32 : toI32 sec = some sec := by unfold toI32; rw [if_neg (by omega)]
      simp only [parse_duration, e1, e2, e3, e4, toI32_zero, hH32, hS32]
      simp only [if_true, ite_true, reduceIte]
      refine congrArg DurationParse.seconds ?_
      unfold wrap32
      omega
    · -- hours and minutes
      simp only [format_duration_piece, if_neg hH, if_neg hM, if_pos hS, List.append_nil,
        List.append_assoc, List.cons_append, List.nil_append]
      have e1 : pgroup ['d'] (intChars h ++ 'h' :: (intChars m ++ 'm' :: 'i' :: 'n' :: []))
          = (0, intChars h ++ 'h' :: (intChars m ++ 'm' :: 'i' :: 'n' :: [])) :=
        pgroup_miss 'd' 'h' [] (by decide) (by decide) h hH _
      have e2 : pgroup ['h'] (intChars h ++ 'h' :: (intChars m ++ 'm' :: 'i' :: 'n' :: []))
          = (h, intChars m ++ 'm' :: 'i' :: 'n' :: []) :=
        pgroup_hit_h h hH _
      have e3 : pgroup ['m', 'i', 'n'] (intChars m ++ 'm' :: 'i' :: 'n' :: []) = (m, []) :=
        pgroup_hit_min m hM []
      have hH32 : toI32 h = some h := by unfold toI32; rw [if_neg (by omega)]
      have hM32 : toI32 m = some m := by unfold toI32; rw [if_neg (by omega)]
      simp only [parse_duration, e1, e2, e3, pgroup_nil, toI32_zero, hH32, hM32]
      simp only [if_true, ite_true, reduceIte]
      refine congrArg DurationParse.seconds ?_
      unfold wrap32
      omega
    · -- hours, minutes and seconds
      simp only [format_duration_piece, if_neg hH, if_neg hM, if_neg hS,
        List.append_assoc, List.cons_append, List.nil_append]
      have e1 : pgroup ['d'] (intChars h ++ 'h' ::
          (intChars m ++ 'm' :: 'i' :: 'n' :: (intChars sec ++ 's' :: [])))
          = (0, intChars h ++ 'h' ::
              (intChars m ++ 'm' :: 'i' :: 'n' :: (intChars sec ++ 's' :: []))) :=
        pgroup_miss 'd' 'h' [] (by decide) (by decide) h hH _
      have e2 : pgroup ['h'] (intChars h ++ 'h' ::
          (intChars m ++ 'm' :: 'i' :: 'n' :: (intChars sec ++ 's' :: [])))
          = (h, intChars m ++ 'm' :: 'i' :: 'n' :: (intChars sec ++ 's' :: [])) :=
        pgroup_hit_h h hH _
      have e3 : pgroup ['m', 'i', 'n']
          (intChars m ++ 'm' :: 'i' :: 'n' :: (intChars sec ++ 's' :: []))
          = (m, intChars sec ++ 's' :: []) :=
        pgroup_hit_min m hM _
      have e4 : pgroup ['s'] (intChars sec ++ 's' :: []) = (sec, []) :=
        pgroup_hit_s sec hS []
      have hH32 : toI32 h = some h := by unfold toI32; rw [if_neg (by omega)]
      have hM32 : toI32 m = some m := by unfold toI32; rw [if_neg (by omega)]
      have hS32 : toI32 sec = some sec := by unfold toI32; rw [if_neg (by omega)]
      simp only [parse_duration, e1, e2, e3, e4, toI32_zero, hH32, hM32, hS32]
      simp only [if_true, ite_true, reduceIte]
      refine congrArg DurationParse.seconds ?_
      unfold wrap32
      omega

/-- C8 witness: a concrete in-range duration round-trips. -/
theorem parse_nice_duration_witness :
    (-2147483648 ≤ (5445 : Int)) ∧ ((5445 : Int) ≤ 2147483647) ∧
      parse_duration (nice_duration 5445) = .seconds 5445 :=
  ⟨by decide, by decide, parse_nice_duration 5445 (by decide) (by decide)⟩

/-! ### Lemmas about the association-list maps and the open-entry count -/

theorem alLookup_insert_self {β : Type} (l : List (String × β)) (k : String) (v : β) :
    alLookup (alInsert l k v) k = some v := by
  induction l with
  | nil => simp [alInsert, alLookup, List.find?]
  | cons p t ih =>
    obtain ⟨k', v'⟩ := p
    by_cases h : k' = k
    · simp [alInsert, h, alLookup, List.find?]
    · simpa [alInsert, h, alLookup, List.find?] using ih

theorem alLookup_insert_ne {β : Type} (l : List (String × β)) (k k' : String) (v : β)
    (h : k' ≠ k) : alLookup (alInsert l k v) k' = alLookup l k' := by
  have hkk : (k == k') = false := beq_eq_false_iff_ne.mpr (Ne.symm h)
  induction l with
  | nil => simp [alInsert, alLookup, List.find?, hkk]
  | cons p t ih =>
    obtain ⟨k0, v0⟩ := p
    by_cases hk : k0 = k
    · subst hk
      simp [alInsert, alLookup, List.find?, hkk]
    · by_cases hk' : (k0 == k') = true
      · simp [alInsert, hk, alLookup, List.find?, hk']
      · simp only [alInsert, if_neg hk]
        simp only [alLookup, List.find?, hk'] at ih ⊢
        exact ih

theorem alLookup_some_mem {β : Type} {l : List (String × β)} {k : String} {v : β}
    (h : alLookup l k = some v) : k ∈ l.map Prod.fst := by
  induction l with
  | nil => simp [alLookup, List.find?] at h
  | cons p t ih =>
    obtain ⟨k0, v0⟩ := p
    by_cases hk : (k0 == k) = true
    · have : k0 = k := beq_iff_eq.mp hk
      simp [List.map_cons, List.mem_cons, this]
    · have h' : alLookup t k = some v := by
        simpa [alLookup, List.find?, hk] using h
      simp only [List.map_cons, List.mem_cons]
      exact .inr (ih h')

theorem mem_keys_alInsert {β : Type} {l : List (String × β)} {k x : String} {v : β}
    (h : x ∈ (alInsert l k v).map Prod.fst) : x = k ∨ x ∈ l.map Prod.fst := by
  induction l with
  | nil => simpa [alInsert] using h
  | cons p t ih =>
    obtain ⟨k0, v0⟩ := p
    by_cases hk : k0 = k
    · simp only [alInsert, if_pos hk, List.map_cons, List.mem_cons] at h
      rcases h with h | h
      · exact .inl h
      · exact .inr (by simp [h])
    · simp only [alInsert, if_neg hk, List.map_cons, List.mem_cons] at h
      rcases h with h | h
      · exact .inr (by simp [h])
      · rcases ih h with h' | h'
        · exact .inl h'
        · exact .inr (by rw [List.map_cons]; exact List.mem_cons_of_mem _ h')

theorem alInsert_keys_nodup {β : Type} {l : List (String × β)} {k : String} {v : β}
    (h : (l.map Prod.fst).Nodup) : ((alInsert l k v).map Prod.fst).Nodup := by
  induction l with
  | nil => simp [alInsert]
  | cons p t ih =>
    obtain ⟨k0, v0⟩ := p
    simp only [List.map_cons, List.nodup_cons] at h
    by_cases hk : k0 = k
    · subst hk
      simpa [alInsert, List.nodup_cons] using h
    · simp only [alInsert, if_neg hk, List.map_cons, List.nodup_cons]
      refine ⟨fun hmem => ?_, ih h.2⟩
      rcases mem_keys_alInsert hmem with h' | h'
      · exact hk h'
      · exact h.1 h'

theorem alRemove_sublist {β : Type} (l : List (String × β)) (k : String) :
    (alRemove l k).Sublist l := by
  induction l with
  | nil => simp [alRemove]
  | cons p t ih =>
    obtain ⟨k0, v0⟩ := p
    by_cases hk : k0 = k
    · simp only [alRemove, if_pos hk]
      exact List.sublist_cons_self (k0, v0) t
    · simpa [alRemove, hk] using ih.cons₂ (k0, v0)

theorem alRemove_keys_nodup {β : Type} {l : List (String × β)} {k : String}
    (h : (l.map Prod.fst).Nodup) : ((alRemove l k).map Prod.fst).Nodup :=
  ((alRemove_sublist l k).map Prod.fst).nodup h

theorem countOpen_cons (p : String × IndexEntry) (t : Index) :
    countOpen (p :: t)
      = (if p.2.log_entry.is_open = true then 1 else 0) + countOpen t := by
  by_cases h : p.2.log_entry.is_open = true
  · simp only [countOpen, List.filter_cons, h, if_true, List.length_cons]
    omega
  · simp only [countOpen, List.filter_cons, h, Bool.false_eq_true, if_false]
    omega

theorem countOpen_singleton (k : String) (v : IndexEntry) :
    countOpen [(k, v)] ≤ 1 := by
  rw [countOpen_cons]
  by_cases h : v.log_entry.is_open = true <;> simp [countOpen, h]

theorem countOpen_eq_zero {l : Index}
    (h : ∀ p ∈ l, p.2.log_entry.is_open = false) : countOpen l = 0 := by
  have : l.filter (fun p => p.2.log_entry.is_open) = [] :=
    List.filter_eq_nil_iff.mpr (fun a ha => by simp [h a ha])
  simp [countOpen, this]

theorem countOpen_zero_all_closed {l : Index} (h : countOpen l = 0) :
    ∀ p ∈ l, p.2.log_entry.is_open = false := by
  have := List.filter_eq_nil_iff.mp (List.length_eq_zero.mp h)
  intro p hp
  have := this p hp
  simpa using this

theorem countOpen_alInsert_le {l : Index} {k : String} {v : IndexEntry}
    (hv : v.log_entry.is_open = false) : countOpen (alInsert l k v) ≤ countOpen l := by
  have hbit : (if v.log_entry.is_open = true then 1 else 0) = 0 := by simp [hv]
  induction l with
  | nil =>
    rw [show alInsert ([] : Index) k v = [(k, v)] from rfl, countOpen_cons, hbit]
    simp [countOpen]
  | cons p t ih =>
    obtain ⟨k0, v0⟩ := p
    by_cases hk : k0 = k
    · rw [show alInsert ((k0, v0) :: t) k v = (k, v) :: t by simp [alInsert, hk],
        countOpen_cons, countOpen_cons, hbit]
      omega
    · rw [show alInsert ((k0, v0) :: t) k v = (k0, v0) :: alInsert t k v by
          simp [alInsert, hk],
        countOpen_cons, countOpen_cons]
      omega

theorem countOpen_alInsert_of_zero {l : Index} {k : String} {v : IndexEntry}
    (h0 : countOpen l = 0) : countOpen (alInsert l k v) ≤ 1 := by
  have hbit : (if v.log_entry.is_open = true then 1 else 0) ≤ 1 := by
    by_cases h : v.log_entry.is_open = true <;> simp [h]
  induction l with
  | nil =>
    rw [show alInsert ([] : Index) k v = [(k, v)] from rfl, countOpen_cons]
    simp only [countOpen, List.filter_nil, List.length_nil]
    omega
  | cons p t ih =>
    obtain ⟨k0, v0⟩ := p
    rw [countOpen_cons] at h0
    by_cases hk : k0 = k
    · rw [show alInsert ((k0, v0) :: t) k v = (k, v) :: t by simp [alInsert, hk],
        countOpen_cons]
      dsimp only
      omega
    · rw [show alInsert ((k0, v0) :: t) k v = (k0, v0) :: alInsert t k v by
          simp [alInsert, hk],
        countOpen_cons]
      have := ih (by omega)
      omega

theorem countOpen_alRemove_le (l : Index) (k : String) :
    countOpen (alRemove l k) ≤ countOpen l :=
  (((alRemove_sublist l k).filter _).length_le)

theorem countOpen_alInsert_keyed {l : Index} {k : String} {v : IndexEntry}
    (hnd : (l.map Prod.fst).Nodup)
    (hk : ∀ p ∈ l, p.2.log_entry.is_open = true → p.1 = k) :
    countOpen (alInsert l k v) ≤ 1 := by
  have hbit : (if v.log_entry.is_open = true then 1 else 0) ≤ 1 := by
    by_cases h : v.log_entry.is_open = true <;> simp [h]
  induction l with
  | nil =>
    rw [show alInsert ([] : Index) k v = [(k, v)] from rfl, countOpen_cons]
    simp only [countOpen, List.filter_nil, List.length_nil]
    omega
  | cons p t ih =>
    obtain ⟨k0, v0⟩ := p
    simp only [List.map_cons, List.nodup_cons] at hnd
    by_cases hkk : k0 = k
    · subst hkk
      rw [show alInsert ((k0, v0) :: t) k0 v = (k0, v) :: t by simp [alInsert],
        countOpen_cons]
      dsimp only
      have ht : countOpen t = 0 := by
        apply countOpen_eq_zero
        intro q hq
        by_contra hopen
        have := hk q (List.mem_cons_of_mem _ hq) (eq_true_of_ne_false hopen)
        exact hnd.1 (this ▸ List.mem_map_of_mem Prod.fst hq)
      omega
    · rw [show alInsert ((k0, v0) :: t) k v = (k0, v0) :: alInsert t k v by
          simp [alInsert, hkk],
        countOpen_cons]
      have hv0 : (if (k0, v0).2.log_entry.is_open = true then 1 else 0) = 0 := by
        by_contra hopen
        refine hkk (hk (k0, v0) (List.mem_cons_self _ _) ?_)
        by_cases hb : v0.log_entry.is_open = true
        · exact hb
        · simp [hb] at hopen
      have := ih hnd.2 (fun q hq => hk q (List.mem_cons_of_mem _ hq))
      omega

theorem mem_of_length_le_one {α : Type} {l : List α} (h : l.length ≤ 1)
    {a b : α} (ha : a ∈ l) (hb : b ∈ l) : a = b := by
  match l with
  | [] => cases ha
  | [x] =>
    rw [List.mem_singleton] at ha hb
    rw [ha, hb]
  | x :: y :: t => simp at h

theorem open_unique {l : Index} (hc : countOpen l ≤ 1) {k : String} {v : IndexEntry}
    (hm : (k, v) ∈ l) (hv : v.log_entry.is_open = true) :
    ∀ p ∈ l, p.2.log_entry.is_open = true → p.1 = k := by
  intro p hp hpopen
  have h1 : (k, v) ∈ l.filter (fun q => q.2.log_entry.is_open) :=
    List.mem_filter.mpr ⟨hm, by simpa using hv⟩
  have h2 : p ∈ l.filter (fun q => q.2.log_entry.is_open) :=
    List.mem_filter.mpr ⟨hp, by simpa using hpopen⟩
  have := mem_of_length_le_one hc h2 h1
  rw [this]

/-! ### Anatomy of the repository operations -/

theorem load_of_file {s : Sys} {id : String} {d : TaskData}
    (h : alLookup s.files id = some (.task d)) :
    load s id = some ⟨id, ⟨d.title, sortLog d.log⟩⟩ := by
  simp [load, readTask, h]

theorem load_some_anatomy {s : Sys} {id : String} {t : Task} (h : load s id = some t) :
    ∃ d, alLookup s.files id = some (.task d) ∧ t = ⟨id, ⟨d.title, sortLog d.log⟩⟩ := by
  unfold load readTask at h
  cases hl : alLookup s.files id with
  | none => rw [hl] at h; simp at h
  | some c =>
    cases c with
    | task d =>
      rw [hl] at h
      simp only [Option.map_some] at h
      exact ⟨d, rfl, (Option.some.injEq .. ▸ h).symm⟩
    | index m => rw [hl] at h; simp at h

theorem load_none_of_index {s : Sys} {id : String} {m : Index}
    (h : alLookup s.files id = some (.index m)) : load s id = none := by
  simp [load, readTask, h]

theorem update_index_files (s : Sys) (t : Task) : (update_index s t).files = s.files := by
  unfold update_index
  cases t.data.log.getLast? <;> rfl

theorem update_index_bad (s : Sys) (t : Task) : (update_index s t).bad = s.bad := by
  unfold update_index
  cases t.data.log.getLast? <;> rfl

theorem update_index_wallClock (s : Sys) (t : Task) :
    (update_index s t).wallClock = s.wallClock := by
  unfold update_index
  cases t.data.log.getLast? <;> rfl

theorem update_index_index (s : Sys) (t : Task) :
    (update_index s t).index
      = match t.data.log.getLast? with
        | some e => alInsert s.index t.id (IndexEntry.new s.wallClock t e)
        | none => alRemove s.index t.id := by
  unfold update_index
  cases t.data.log.getLast? <;> rfl

theorem update_index_index_keys_nodup {s : Sys} {t : Task}
    (h : (s.index.map Prod.fst).Nodup) :
    (((update_index s t).index).map Prod.fst).Nodup := by
  rw [update_index_index]
  cases t.data.log.getLast? with
  | none => exact alRemove_keys_nodup h
  | some e => exact alInsert_keys_nodup h

theorem save_ok_anatomy {s : Sys} {t : Task} {s' : Sys} (h : save s t = .ok s') :
    s.bad t.id = false ∧ s.bad ".index" = false ∧
      s'.files = alInsert (alInsert s.files t.id (.task t.data)) ".index"
        (.index (update_index s t).index) ∧
      s'.index = (update_index s t).index ∧ s'.bad = s.bad ∧
      s'.wallClock = s.wallClock := by
  unfold save at h
  cases hw : fsWriteOp s t.id (.task t.data) with
  | none => rw [hw] at h; exact absurd h (by simp)
  | some s1 =>
    rw [hw] at h
    simp only at h
    unfold fsWriteOp at hw
    by_cases hb : s.bad t.id = true
    · rw [if_pos hb] at hw; exact absurd hw (by simp)
    · rw [if_neg hb] at hw
      have hs1 : s1 = { s with files := alInsert s.files t.id (.task t.data) } :=
        (Option.some.injEq .. ▸ hw).symm
      cases hsi : save_index (update_index s1 t) with
      | none =>
        rw [hsi] at h; exact absurd h (by simp)
      | some s3 =>
        rw [hsi] at h
        simp only [Res.ok.injEq] at h
        subst h
        unfold save_index fsWriteOp at hsi
        by_cases hbi : (update_index s1 t).bad ".index" = true
        · rw [if_pos hbi] at hsi; exact absurd hsi (by simp)
        · rw [if_neg hbi] at hsi
          have hs3 : s3 = { update_index s1 t with
              files := alInsert (update_index s1 t).files ".index"
                (.index (update_index s1 t).index) } :=
            (Option.some.injEq .. ▸ hsi).symm
          have hbad1 : (update_index s1 t).bad = s.bad := by
            rw [update_index_bad, hs1]
          have hidx1 : (update_index s1 t).index = (update_index s t).index := by
            rw [update_index_index, update_index_index, hs1]
          have hfiles1 : (update_index s1 t).files
              = alInsert s.files t.id (.task t.data) := by
            rw [update_index_files, hs1]
          have hwc1 : (update_index s1 t).wallClock = s.wallClock := by
            rw [update_index_wallClock, hs1]
          refine ⟨by simpa using hb, by rw [← hbad1]; simpa using hbi, ?_, ?_, ?_, ?_⟩
          · rw [hs3]
            simp only
            rw [hfiles1, hidx1]
          · rw [hs3]
            simp only
            exact hidx1
          · rw [hs3]
            simp only
            exact hbad1
          · rw [hs3]
            simp only
            exact hwc1

theorem save_err_anatomy {s : Sys} {t : Task} {s' : Sys} (h : save s t = .err s') :
    (s' = s ∧ s.bad t.id = true) ∨
      (s'.files = alInsert s.files t.id (.task t.data) ∧
        s'.index = (update_index s t).index ∧ s.bad t.id = false ∧
        s.bad ".index" = true) := by
  unfold save at h
  cases hw : fsWriteOp s t.id (.task t.data) with
  | none =>
    rw [hw] at h
    simp only [Res.err.injEq] at h
    unfold fsWriteOp at hw
    by_cases hb : s.bad t.id = true
    · exact .inl ⟨h.symm, hb⟩
    · rw [if_neg hb] at hw; exact absurd hw (by simp)
  | some s1 =>
    rw [hw] at h
    simp only at h
    unfold fsWriteOp at hw
    by_cases hb : s.bad t.id = true
    · rw [if_pos hb] at hw; exact absurd hw (by simp)
    · rw [if_neg hb] at hw
      have hs1 : s1 = { s with files := alInsert s.files t.id (.task t.data) } :=
        (Option.some.injEq .. ▸ hw).symm
      cases hsi : save_index (update_index s1 t) with
      | some s3 => rw [hsi] at h; exact absurd h (by simp)
      | none =>
        rw [hsi] at h
        simp only [Res.err.injEq] at h
        subst h
        unfold save_index fsWriteOp at hsi
        by_cases hbi : (update_index s1 t).bad ".index" = true
        · refine .inr ⟨?_, ?_, by simpa using hb, ?_⟩
          · rw [update_index_files, hs1]
          · rw [update_index_index, update_index_index, hs1]
          · rw [update_index_bad, hs1] at hbi
            exact hbi
        · rw [if_neg hbi] at hsi; exact absurd hsi (by simp)

theorem clock_in_ok_anatomy {s : Sys} {id : String} {ts : Timestamp} {s' : Sys}
    (h : clock_in s id ts = .ok s') :
    ∃ d, alLookup s.files id = some (.task d) ∧
      save s ⟨id, ⟨d.title, sortLog d.log ++ [LogEntry.new ts]⟩⟩ = .ok s' := by
  unfold clock_in at h
  cases hl : load s id with
  | none => rw [hl] at h; exact absurd h (by simp)
  | some t =>
    rw [hl] at h
    obtain ⟨d, hd, ht⟩ := load_some_anatomy hl
    subst ht
    exact ⟨d, hd, h⟩

theorem clock_out_ok_anatomy {s : Sys} {id : String} {ts : Timestamp} {s' : Sys}
    (h : clock_out s id ts = .ok s') :
    ∃ d e, alLookup s.files id = some (.task d) ∧
      (sortLog d.log).getLast? = some e ∧ e.stop = none ∧
      save s ⟨id, ⟨d.title, (sortLog d.log).dropLast ++ [⟨e.start, some ts⟩]⟩⟩ = .ok s' := by
  unfold clock_out at h
  cases hl : load s id with
  | none => rw [hl] at h; exact absurd h (by simp)
  | some t =>
    rw [hl] at h
    obtain ⟨d, hd, ht⟩ := load_some_anatomy hl
    subst ht
    dsimp only at h
    cases hg : (sortLog d.log).getLast? with
    | none => rw [hg] at h; exact absurd h (by simp)
    | some e =>
      rw [hg] at h
      dsimp only at h
      cases he : e.stop with
      | some x => rw [he] at h; exact absurd h (by simp)
      | none =>
        rw [he] at h
        dsimp only at h
        exact ⟨d, e, hd, hg, he, h⟩

theorem un_clock_in_ok_anatomy {s : Sys} {id : String} {s' : Sys}
    (h : un_clock_in s id = .ok s') :
    ∃ d e, alLookup s.files id = some (.task d) ∧
      (sortLog d.log).getLast? = some e ∧ e.stop = none ∧
      save s ⟨id, ⟨d.title, (sortLog d.log).dropLast⟩⟩ = .ok s' := by
  unfold un_clock_in at h
  cases hl : load s id with
  | none => rw [hl] at h; exact absurd h (by simp)
  | some t =>
    rw [hl] at h
    obtain ⟨d, hd, ht⟩ := load_some_anatomy hl
    subst ht
    dsimp only at h
    cases hg : (sortLog d.log).getLast? with
    | none => rw [hg] at h; exact absurd h (by simp)
    | some e =>
      rw [hg] at h
      dsimp only at h
      cases he : e.stop with
      | some x => rw [he] at h; exact absurd h (by simp)
      | none =>
        rw [he] at h
        dsimp only at h
        exact ⟨d, e, hd, hg, he, h⟩

theorem un_clock_out_ok_anatomy {s : Sys} {id : String} {s' : Sys}
    (h : un_clock_out s id = .ok s') :
    ∃ d e x, alLookup s.files id = some (.task d) ∧
      (sortLog d.log).getLast? = some e ∧ e.stop = some x ∧
      save s ⟨id, ⟨d.title, (sortLog d.log).dropLast ++ [⟨e.start, none⟩]⟩⟩ = .ok s' := by
  unfold un_clock_out at h
  cases hl : load s id with
  | none => rw [hl] at h; exact absurd h (by simp)
  | some t =>
    rw [hl] at h
    obtain ⟨d, hd, ht⟩ := load_some_anatomy hl
    subst ht
    dsimp only at h
    cases hg : (sortLog d.log).getLast? with
    | none => rw [hg] at h; exact absurd h (by simp)
    | some e =>
      rw [hg] at h
      dsimp only at h
      cases he : e.stop with
      | none => rw [he] at h; exact absurd h (by simp)
      | some x =>
        rw [he] at h
        dsimp only at h
        exact ⟨d, e, x, hd, hg, he, h⟩

theorem do_work_on_ok_anatomy {s : Sys} {id : String} {ts : Timestamp} {s' : Sys}
    (h : do_work_on s id ts = .ok s') :
    is_clocked_in s = none ∧ clock_in s id ts = .ok s' := by
  unfold do_work_on at h
  by_cases he : exists_ s id = false
  · rw [if_pos he] at h; exact absurd h (by simp)
  · rw [if_neg he] at h
    cases hic : is_clocked_in s with
    | some j => rw [hic] at h; exact absurd h (by simp)
    | none => rw [hic] at h; exact ⟨rfl, h⟩

theorem do_halt_ok_anatomy {s : Sys} {ts : Timestamp} {s' : Sys}
    (h : do_halt s ts = .ok s') :
    ∃ id, is_clocked_in s = some id ∧ clock_out s id ts = .ok s' := by
  unfold do_halt at h
  cases hic : is_clocked_in s with
  | none => rw [hic] at h; exact absurd h (by simp)
  | some id => rw [hic] at h; exact ⟨id, rfl, h⟩

theorem do_cancel_ok_anatomy {s : Sys} {s' : Sys} (h : do_cancel s = .ok s') :
    ∃ id, is_clocked_in s = some id ∧ un_clock_in s id = .ok s' := by
  unfold do_cancel at h
  cases hic : is_clocked_in s with
  | none => rw [hic] at h; exact absurd h (by simp)
  | some id => rw [hic] at h; exact ⟨id, rfl, h⟩

theorem is_clocked_in_none_countOpen {s : Sys} (h : is_clocked_in s = none) :
    countOpen s.index = 0 := by
  unfold is_clocked_in at h
  have hf : s.index.find? (fun p => p.2.log_entry.is_open) = none := by
    cases hf : s.index.find? (fun p => p.2.log_entry.is_open) with
    | none => rfl
    | some p => rw [hf] at h; simp at h
  apply countOpen_eq_zero
  intro p hp
  have := List.find?_eq_none.mp hf p hp
  simpa using this

theorem is_clocked_in_some_mem {s : Sys} {k : String} (h : is_clocked_in s = some k) :
    ∃ v, (k, v) ∈ s.index ∧ v.log_entry.is_open = true := by
  unfold is_clocked_in at h
  cases hf : s.index.find? (fun p => p.2.log_entry.is_open) with
  | none => rw [hf] at h; simp at h
  | some p =>
    obtain ⟨k0, v⟩ := p
    rw [hf] at h
    have hk : k0 = k := by simpa using h
    subst hk
    have hmem := List.mem_of_find?_eq_some hf
    have hpred := List.find?_some hf
    exact ⟨v, hmem, by simpa using hpred⟩

theorem clock_in_ok_index {s : Sys} {id : String} {ts : Timestamp} {s' : Sys}
    (h : clock_in s id ts = .ok s') :
    ∃ en : IndexEntry, en.log_entry.is_open = true ∧
      s'.index = alInsert s.index id en := by
  obtain ⟨d, _, hsave⟩ := clock_in_ok_anatomy h
  obtain ⟨_, _, _, hidx, _, _⟩ := save_ok_anatomy hsave
  rw [update_index_index] at hidx
  simp only [List.getLast?_concat] at hidx
  exact ⟨IndexEntry.new s.wallClock _ (LogEntry.new ts), rfl, hidx⟩

theorem clock_out_ok_index {s : Sys} {id : String} {ts : Timestamp} {s' : Sys}
    (h : clock_out s id ts = .ok s') :
    ∃ en : IndexEntry, en.log_entry.is_open = false ∧
      s'.index = alInsert s.index id en := by
  obtain ⟨d, e, _, _, _, hsave⟩ := clock_out_ok_anatomy h
  obtain ⟨_, _, _, hidx, _, _⟩ := save_ok_anatomy hsave
  rw [update_index_index] at hidx
  simp only [List.getLast?_concat] at hidx
  exact ⟨IndexEntry.new s.wallClock _ ⟨e.start, some ts⟩, rfl, hidx⟩

theorem un_clock_in_ok_index {s : Sys} {id : String} {s' : Sys}
    (h : un_clock_in s id = .ok s') :
    (∃ en : IndexEntry, s'.index = alInsert s.index id en) ∨
      s'.index = alRemove s.index id := by
  obtain ⟨d, e, _, _, _, hsave⟩ := un_clock_in_ok_anatomy h
  obtain ⟨_, _, _, hidx, _, _⟩ := save_ok_anatomy hsave
  rw [update_index_index] at hidx
  cases hg : ((sortLog d.log).dropLast : List LogEntry).getLast? with
  | none => rw [hg] at hidx; exact .inr hidx
  | some e' => rw [hg] at hidx; exact .inl ⟨_, hidx⟩

/-- One successful guarded command preserves key-uniqueness and the
at-most-one-open bound of the in-memory index. -/
theorem cmd_preserves_inv {s s' : Sys} {c : Cmd} (h : applyCmd s c = .ok s')
    (hnd : (s.index.map Prod.fst).Nodup) (hc : countOpen s.index ≤ 1) :
    (s'.index.map Prod.fst).Nodup ∧ countOpen s'.index ≤ 1 := by
  cases c with
  | workOn id ts =>
    obtain ⟨hic, hci⟩ := do_work_on_ok_anatomy h
    obtain ⟨en, _, hidx⟩ := clock_in_ok_index hci
    rw [hidx]
    exact ⟨alInsert_keys_nodup hnd,
      countOpen_alInsert_of_zero (is_clocked_in_none_countOpen hic)⟩
  | halt ts =>
    obtain ⟨id, _, hco⟩ := do_halt_ok_anatomy h
    obtain ⟨en, hclosed, hidx⟩ := clock_out_ok_index hco
    rw [hidx]
    exact ⟨alInsert_keys_nodup hnd, le_trans (countOpen_alInsert_le hclosed) hc⟩
  | cancel =>
    obtain ⟨id, hic, huci⟩ := do_cancel_ok_anatomy h
    obtain ⟨v, hmem, hopen⟩ := is_clocked_in_some_mem hic
    have hkeyed := open_unique hc hmem hopen
    rcases un_clock_in_ok_index huci with ⟨en, hidx⟩ | hidx
    · rw [hidx]
      exact ⟨alInsert_keys_nodup hnd, countOpen_alInsert_keyed hnd hkeyed⟩
    · rw [hidx]
      exact ⟨alRemove_keys_nodup hnd, le_trans (countOpen_alRemove_le _ _) hc⟩

theorem runCmds_inv {cmds : List Cmd} {s s' : Sys} (h : runCmds s cmds = some s')
    (hnd : (s.index.map Prod.fst).Nodup) (hc : countOpen s.index ≤ 1) :
    (s'.index.map Prod.fst).Nodup ∧ countOpen s'.index ≤ 1 := by
  induction cmds generalizing s with
  | nil =>
    unfold runCmds at h
    have : s = s' := by simpa using h
    subst this
    exact ⟨hnd, hc⟩
  | cons c rest ih =>
    unfold runCmds at h
    cases hap : applyCmd s c with
    | err s2 => rw [hap] at h; simp at h
    | ok s2 =>
      rw [hap] at h
      dsimp only at h
      obtain ⟨hnd2, hc2⟩ := cmd_preserves_inv hap hnd hc
      exact ih h hnd2 hc2

/-! ### What failing operations leave behind -/

theorem save_err_index_file {s : Sys} {t : Task} {s' : Sys} (h : save s t = .err s') :
    alLookup s'.files ".index" = alLookup s.files ".index" := by
  rcases save_err_anatomy h with ⟨rfl, _⟩ | ⟨hf, _, hb, hbi⟩
  · rfl
  · rw [hf]
    apply alLookup_insert_ne
    intro e
    rw [← e] at hb
    rw [hb] at hbi
    exact Bool.false_ne_true hbi

theorem clock_in_err_anatomy {s : Sys} {id : String} {ts : Timestamp} {s' : Sys}
    (h : clock_in s id ts = .err s') : s' = s ∨ ∃ t, save s t = .err s' := by
  unfold clock_in at h
  cases hl : load s id with
  | none =>
    rw [hl] at h
    exact .inl (by simpa using h.symm)
  | some t =>
    rw [hl] at h
    exact .inr ⟨_, h⟩

theorem clock_out_err_anatomy {s : Sys} {id : String} {ts : Timestamp} {s' : Sys}
    (h : clock_out s id ts = .err s') : s' = s ∨ ∃ t, save s t = .err s' := by
  unfold clock_out at h
  cases hl : load s id with
  | none => rw [hl] at h; exact .inl (by simpa using h.symm)
  | some t =>
    rw [hl] at h
    dsimp only at h
    cases hg : t.data.log.getLast? with
    | none => rw [hg] at h; exact .inl (by simpa using h.symm)
    | some e =>
      rw [hg] at h
      dsimp only at h
      cases he : e.stop with
      | some x => rw [he] at h; exact .inl (by simpa using h.symm)
      | none => rw [he] at h; exact .inr ⟨_, h⟩

theorem un_clock_in_err_anatomy {s : Sys} {id : String} {s' : Sys}
    (h : un_clock_in s id = .err s') : s' = s ∨ ∃ t, save s t = .err s' := by
  unfold un_clock_in at h
  cases hl : load s id with
  | none => rw [hl] at h; exact .inl (by simpa using h.symm)
  | some t =>
    rw [hl] at h
    dsimp only at h
    cases hg : t.data.log.getLast? with
    | none => rw [hg] at h; exact .inl (by simpa using h.symm)
    | some e =>
      rw [hg] at h
      dsimp only at h
      cases he : e.stop with
      | some x => rw [he] at h; exact .inl (by simpa using h.symm)
      | none => rw [he] at h; exact .inr ⟨_, h⟩

theorem un_clock_out_err_anatomy {s : Sys} {id : String} {s' : Sys}
    (h : un_clock_out s id = .err s') : s' = s ∨ ∃ t, save s t = .err s' := by
  unfold un_clock_out at h
  cases hl : load s id with
  | none => rw [hl] at h; exact .inl (by simpa using h.symm)
  | some t =>
    rw [hl] at h
    dsimp only at h
    cases hg : t.data.log.getLast? with
    | none => rw [hg] at h; exact .inl (by simpa using h.symm)
    | some e =>
      rw [hg] at h
      dsimp only at h
      cases he : e.stop with
      | none => rw [he] at h; exact .inl (by simpa using h.symm)
      | some x => rw [he] at h; exact .inr ⟨_, h⟩

theorem load_update_index (s : Sys) (t : Task) (id : String) :
    load (update_index s t) id = load s id := by
  unfold load readTask
  rw [update_index_files]

theorem rebuildGo_err_files {ids : List String} {s s' : Sys}
    (h : rebuildGo ids s = .err s') : s'.files = s.files := by
  induction ids generalizing s with
  | nil =>
    unfold rebuildGo at h
    cases hsi : save_index s with
    | none =>
      rw [hsi] at h
      have : s = s' := by simpa using h
      rw [← this]
    | some s3 => rw [hsi] at h; exact absurd h (by simp)
  | cons id rest ih =>
    unfold rebuildGo at h
    cases hl : load s id with
    | none =>
      rw [hl] at h
      have : s = s' := by simpa using h
      rw [← this]
    | some t =>
      rw [hl] at h
      dsimp only at h
      rw [ih h, update_index_files]

theorem rebuild_index_err_files {s s' : Sys} (h : rebuild_index s = .err s') :
    s'.files = s.files := by
  unfold rebuild_index at h
  dsimp only at h
  have h2 := rebuildGo_err_files h
  simpa using h2

theorem rebuildGo_err_of_load_none {ids : List String} {s : Sys} (id0 : String)
    (hmem : id0 ∈ ids) (hload : load s id0 = none) :
    (rebuildGo ids s).isErr = true := by
  induction ids generalizing s with
  | nil => cases hmem
  | cons id rest ih =>
    unfold rebuildGo
    cases hl : load s id with
    | none => rfl
    | some t =>
      dsimp only
      rcases List.mem_cons.mp hmem with rfl | hmem'
      · rw [hl] at hload; exact absurd hload (by simp)
      · exact ih hmem' (by rw [load_update_index]; exact hload)

/-! ### The claims -/

/-- C8: counterexample — the claimed encoding over suffixes `d,h,min,s`
with zero units omitted would write one day as `"1d"`, but the code writes
`"24h"`, and the reader parses `"1d"` to `0` seconds rather than `86400`
(the `d` capture is dropped from the sum), so `d`-expressions do not
round-trip. -/
theorem C8_duration_cex :
    claim_nice_duration 86400 = ['1', 'd'] ∧
      nice_duration 86400 = ['2', '4', 'h'] ∧
      parse_duration ['1', 'd'] = DurationParse.seconds 0 ∧ (0 : Int) ≠ 86400 := by
  refine ⟨by decide, by decide, by decide, by decide⟩

/-- C10: `LogEntry` equality and ordering look only at `start` and ignore
`end` entirely: an open and a closed entry with equal `start` compare
equal, `cmp` is comparison of the starts, and a log sort is unaffected by
erasing every `end`. -/
theorem C10_logentry_order_ignores_end :
    logEntryEq ⟨5, none⟩ ⟨5, some 9⟩ = true ∧
      (∀ a b : LogEntry, logEntryCmp a b = compare a.start b.start) ∧
      (∀ l : List LogEntry, sortLog (l.map eraseStop) = (sortLog l).map eraseStop) := by
  refine ⟨by decide, fun a b => rfl, fun l => ?_⟩
  exact (List.map_insertionSort logLe logLe eraseStop l (fun a _ b _ => Iff.rfl)).symm

/-- C9: whenever a persisted index file exists under the root,
`rebuild_index` enumerates it as a record (id `".index"`, since `list_ids`
filters only on the `.toml` extension), fails to load it as a task, and
returns an error instead of completing. -/
theorem C9_rebuild_chokes_on_index_file (s : Sys) (m : Index)
    (h : alLookup s.files ".index" = some (.index m)) :
    ".index" ∈ list_ids s ∧ load s ".index" = none ∧
      (rebuild_index s).isErr = true := by
  refine ⟨alLookup_some_mem h, load_none_of_index h, ?_⟩
  unfold rebuild_index
  dsimp only
  exact rebuildGo_err_of_load_none ".index" (alLookup_some_mem h) (load_none_of_index h)

/-- C9 witness: a store holding just an index file makes `rebuild_index`
fail. -/
theorem C9_rebuild_chokes_on_index_file_witness :
    ".index" ∈ list_ids ⟨[(".index", .index [])], [], fun _ => false, 0⟩ ∧
      load ⟨[(".index", .index [])], [], fun _ => false, 0⟩ ".index" = none ∧
      (rebuild_index ⟨[(".index", .index [])], [], fun _ => false, 0⟩).isErr = true :=
  C9_rebuild_chokes_on_index_file _ [] (by rfl)

/-- C4: the claim is right and the code is wrong — with one record `"a"`
and no index file, the first `rebuild_index` succeeds (creating
`.index.toml`), and the second then fails while parsing `.index.toml` as a
task record, instead of succeeding with identical bytes. -/
theorem C4_rebuild_twice_fails :
    ((rebuild_index ⟨[("a", .task ⟨"A", [⟨0, some 10⟩]⟩)], [], fun _ => false, 100⟩).toOption.map
      (fun s1 => (rebuild_index s1).isOk)) = some false := by
  decide

/-- C1: counterexample — the Repo primitive `clock_in` makes no
global-Active check, so two `clock_in` calls on different existing tasks
both succeed and leave the index with two open entries. -/
theorem C1_primitive_cex :
    ((runPrims ⟨[("a", .task ⟨"A", []⟩), ("b", .task ⟨"B", []⟩)], [], fun _ => false, 0⟩
        [Prim.cin "a" 0, Prim.cin "b" 1]).map (fun s => countOpen s.index)) = some 2 := by
  decide

/-- C1 (amended): while the four Repo clock primitives alone do not
preserve the single-active invariant (see the counterexample), the guarded
command layer does: any sequence of individually successful `do_work_on`,
`do_halt`, `do_cancel` calls, started from a well-formed index (unique
keys, at most one open entry), leaves the index with at most one open
entry. -/
theorem C1_amended_single_active (cmds : List Cmd) (s s' : Sys)
    (h : runCmds s cmds = some s') (hnd : (s.index.map Prod.fst).Nodup)
    (hc : countOpen s.index ≤ 1) : countOpen s'.index ≤ 1 :=
  (runCmds_inv h hnd hc).2

/-- C1 witness: a concrete work-on/halt run keeps at most one open
entry. -/
theorem C1_amended_single_active_witness :
    countOpen ((runCmds ⟨[("a", FileContent.task ⟨"A", []⟩)], [], fun _ => false, 0⟩
        [Cmd.workOn "a" 0, Cmd.halt 5]).getD ⟨[], [], fun _ => false, 0⟩).index ≤ 1 :=
  C1_amended_single_active [Cmd.workOn "a" 0, Cmd.halt 5]
    ⟨[("a", FileContent.task ⟨"A", []⟩)], [], fun _ => false, 0⟩ _
    (by rfl) (by decide) (by decide)

/-- C2: the guarded clock-in transition `do_work_on` fails when the task's
backing record is missing; fails when any task is globally Active (some
index entry has an open last log entry); and when it succeeds, the
persisted record afterwards is the previous record with its log sorted and
exactly one new entry `{start := ts, end := none}` appended.  (The success
shape is stated for identifiers other than `".index"`, which the
identifier grammar of the data model cannot produce anyway.) -/
theorem C2_clock_in_guards (s : Sys) (id : String) (ts : Timestamp) :
    (alLookup s.files id = none → (do_work_on s id ts).isErr = true) ∧
      ((is_clocked_in s).isSome = true → (do_work_on s id ts).isErr = true) ∧
      (∀ s', do_work_on s id ts = .ok s' → id ≠ ".index" →
        ∃ d, alLookup s.files id = some (.task d) ∧
          alLookup s'.files id
            = some (.task ⟨d.title, sortLog d.log ++ [LogEntry.new ts]⟩)) := by
  refine ⟨?_, ?_, ?_⟩
  · intro h
    have he : exists_ s id = false := by simp [exists_, h]
    simp [do_work_on, he, Res.isErr]
  · intro h
    obtain ⟨j, hj⟩ := Option.isSome_iff_exists.mp h
    by_cases he : exists_ s id = false
    · simp [do_work_on, he, Res.isErr]
    · simp [do_work_on, he, hj, Res.isErr]
  · intro s' hok hne
    obtain ⟨_, hci⟩ := do_work_on_ok_anatomy hok
    obtain ⟨d, hd, hsave⟩ := clock_in_ok_anatomy hci
    obtain ⟨_, _, hfiles, _, _, _⟩ := save_ok_anatomy hsave
    refine ⟨d, hd, ?_⟩
    rw [hfiles, alLookup_insert_ne _ _ _ _ hne, alLookup_insert_self]

/-- C2 witness: `do_work_on` on an empty store fails. -/
theorem C2_clock_in_guards_witness :
    (do_work_on ⟨[], [], fun _ => false, 0⟩ "a" 3).isErr = true :=
  (C2_clock_in_guards ⟨[], [], fun _ => false, 0⟩ "a" 3).1 (by rfl)

/-- C5: a successfully saved task, loaded back by the same identifier,
yields the same title and a log holding the same entries sorted ascending
by `start`, whatever order they were appended in.  (Stated for identifiers
other than `".index"`, which the identifier grammar cannot produce.) -/
theorem C5_save_load_roundtrip (s : Sys) (task : Task) (s' : Sys)
    (hne : task.id ≠ ".index") (h : save s task = .ok s') :
    ∃ t', load s' task.id = some t' ∧ t'.data.title = task.data.title ∧
      t'.data.log.Perm task.data.log ∧ List.Sorted logLe t'.data.log := by
  obtain ⟨_, _, hfiles, _, _, _⟩ := save_ok_anatomy h
  have hlk : alLookup s'.files task.id = some (.task task.data) := by
    rw [hfiles, alLookup_insert_ne _ _ _ _ hne, alLookup_insert_self]
  refine ⟨⟨task.id, ⟨task.data.title, sortLog task.data.log⟩⟩, load_of_file hlk, rfl, ?_, ?_⟩
  · exact List.perm_insertionSort logLe task.data.log
  · exact List.sorted_insertionSort logLe task.data.log

/-- C5 witness: a concrete save of an out-of-order log loads back sorted. -/
theorem C5_save_load_roundtrip_witness :
    ∃ t', load ((save ⟨[], [], fun _ => false, 0⟩
          ⟨"a", ⟨"T", [⟨5, some 6⟩, ⟨1, some 2⟩]⟩⟩).state) "a" = some t' ∧
      t'.data.title = "T" ∧
      t'.data.log.Perm [⟨5, some 6⟩, ⟨1, some 2⟩] ∧ List.Sorted logLe t'.data.log :=
  C5_save_load_roundtrip ⟨[], [], fun _ => false, 0⟩
    ⟨"a", ⟨"T", [⟨5, some 6⟩, ⟨1, some 2⟩]⟩⟩ _ (by decide) (by rfl)

/-- C7: counterexample — `rebuild_index` aborting on a parse failure (here:
the index file itself) has already cleared the in-memory index, so a
failing operation does mutate the index, contrary to the claim. -/
theorem C7_partial_mutation_cex :
    (rebuild_index ⟨[(".index", .index [])], [("b", ⟨"B", ⟨0, none⟩, 0⟩)],
        fun _ => false, 0⟩).isErr = true ∧
      (rebuild_index ⟨[(".index", .index [])], [("b", ⟨"B", ⟨0, none⟩, 0⟩)],
          fun _ => false, 0⟩).state.index
        ≠ [("b", ⟨"B", ⟨0, none⟩, 0⟩)] := by
  refine ⟨by decide, by decide⟩

/-- C7 (amended): a failed record write inside `save` aborts the operation
with the whole state (files, in-memory index, persisted index) exactly as
it was; and every failing operation leaves the persisted index file
unchanged.  (A failure later than the record write — a failed index write,
or a rebuild aborting mid-scan — can still leave the in-memory index
mutated, as the counterexample shows.) -/
theorem C7_amended_failure_isolation :
    (∀ s : Sys, ∀ t : Task, s.bad t.id = true → save s t = .err s) ∧
      (∀ op : Op, ∀ s s' : Sys, applyOp s op = .err s' →
        alLookup s'.files ".index" = alLookup s.files ".index") := by
  constructor
  · intro s t h
    simp [save, fsWriteOp, h]
  · intro op s s' h
    cases op with
    | save t => exact save_err_index_file h
    | cin id ts =>
      rcases clock_in_err_anatomy h with rfl | ⟨t, ht⟩
      · rfl
      · exact save_err_index_file ht
    | cout id ts =>
      rcases clock_out_err_anatomy h with rfl | ⟨t, ht⟩
      · rfl
      · exact save_err_index_file ht
    | ucin id =>
      rcases un_clock_in_err_anatomy h with rfl | ⟨t, ht⟩
      · rfl
      · exact save_err_index_file ht
    | ucout id =>
      rcases un_clock_out_err_anatomy h with rfl | ⟨t, ht⟩
      · rfl
      · exact save_err_index_file ht
    | rebuild => rw [rebuild_index_err_files h]

/-- C7 witness: with the record path marked unwritable, `save` fails and
returns the state unchanged. -/
theorem C7_amended_failure_isolation_witness :
    save ⟨[], [], fun _ => true, 0⟩ ⟨"a", ⟨"T", []⟩⟩ = .err ⟨[], [], fun _ => true, 0⟩ :=
  C7_amended_failure_isolation.1 ⟨[], [], fun _ => true, 0⟩ ⟨"a", ⟨"T", []⟩⟩ (by rfl)

theorem loadAll_flatMap {s : Sys} {ids : List String} {tasks : List Task}
    (h : loadAll s ids = some tasks) (f : Task → List ListItem) :
    tasks.flatMap f
      = ids.flatMap (fun id => match load s id with | some t => f t | none => []) := by
  induction ids generalizing tasks with
  | nil =>
    unfold loadAll at h
    have : tasks = [] := by simpa using h.symm
    subst this
    rfl
  | cons id rest ih =>
    unfold loadAll at h
    cases hl : load s id with
    | none => rw [hl] at h; simp at h
    | some t =>
      rw [hl] at h
      dsimp only at h
      cases hrest : loadAll s rest with
      | none => rw [hrest] at h; simp at h
      | some ts =>
        rw [hrest] at h
        have hts : tasks = t :: ts := by simpa using h.symm
        subst hts
        rw [List.flatMap_cons, List.flatMap_cons]
        have hG : (match load s id with | some t => f t | none => ([] : List ListItem))
            = f t := by rw [hl]
        rw [hG, ih hrest]

/-- C6: whenever `get_listing(after, before)` succeeds, its rows are
exactly one row per log entry — over the tasks passing the index
pre-filter on the most recent entry's start — whose start lies within
`[after, before]` (bounds inclusive, absent bound unbounded), and the rows
are sorted descending by entry start. -/
theorem C6_listing_rows (s : Sys) (after before : Option Timestamp)
    (items : List ListItem) (h : get_listing s after before = some items) :
    List.Sorted (fun a b => logGe a.log_entry b.log_entry) items ∧
      items.Perm (claimListingRows s after before) := by
  unfold get_listing at h
  dsimp only at h
  cases hla : loadAll s
      (((sorted_index s).filter
        (fun kv => is_after after kv.2.log_entry.start)).map (·.1)) with
  | none => rw [hla] at h; simp at h
  | some tasks =>
    rw [hla] at h
    have hitems : items
        = List.insertionSort (fun a b => logGe a.log_entry b.log_entry)
          (tasks.flatMap (taskRows after before)) := by simpa using h.symm
    subst hitems
    constructor
    · exact List.sorted_insertionSort _ _
    · refine (List.perm_insertionSort _ _).trans ?_
      rw [loadAll_flatMap hla (taskRows after before), List.flatMap_map]
      exact List.Perm.flatMap_right _
        ((List.perm_insertionSort _ s.index).filter _)

/-- C6 witness: a concrete listing query. -/
theorem C6_listing_rows_witness :
    List.Sorted (fun a b => logGe a.log_entry b.log_entry)
      ((get_listing ⟨[("a", .task ⟨"A", [⟨0, some 1⟩, ⟨2, some 3⟩]⟩)],
          [("a", ⟨"A", ⟨2, some 3⟩, 2⟩)], fun _ => false, 10⟩ (some 1) none).getD []) ∧
      ((get_listing ⟨[("a", .task ⟨"A", [⟨0, some 1⟩, ⟨2, some 3⟩]⟩)],
          [("a", ⟨"A", ⟨2, some 3⟩, 2⟩)], fun _ => false, 10⟩ (some 1) none).getD []).Perm
        (claimListingRows ⟨[("a", .task ⟨"A", [⟨0, some 1⟩, ⟨2, some 3⟩]⟩)],
          [("a", ⟨"A", ⟨2, some 3⟩, 2⟩)], fun _ => false, 10⟩ (some 1) none) :=
  C6_listing_rows ⟨[("a", .task ⟨"A", [⟨0, some 1⟩, ⟨2, some 3⟩]⟩)],
    [("a", ⟨"A", ⟨2, some 3⟩, 2⟩)], fun _ => false, 10⟩ (some 1) none _ (by rfl)

/-- C3: counterexample — with an out-of-order stored log, a successful
`clock_in`/`un_clock_in` pair persists the sorted log, not the original
order, so the pre-state is not restored "same entries in the same
order". -/
theorem C3_undo_cex :
    (runPrims ⟨[("a", .task ⟨"A", [⟨20, some 21⟩, ⟨10, some 11⟩]⟩)], [],
        fun _ => false, 0⟩ [Prim.cin "a" 30, Prim.ucin "a"]).map
      (fun s => alLookup s.files "a")
      = some (some (.task ⟨"A", [⟨10, some 11⟩, ⟨20, some 21⟩]⟩)) ∧
    [(⟨10, some 11⟩ : LogEntry), ⟨20, some 21⟩] ≠ [⟨20, some 21⟩, ⟨10, some 11⟩] := by
  refine ⟨by decide, by decide⟩

/-- C3 (amended): when the stored log is already sorted by `start`,
`clock_out(ts)` followed by `un_clock_out` restores the persisted record
exactly, and `clock_in(t)` followed by `un_clock_in` restores it exactly
provided `t` is at least every recorded start; in general the pair leaves
the sorted version of the original log (see the counterexample).  (Stated
for identifiers other than `".index"`, which the grammar cannot
produce.) -/
theorem C3_amended_undo_inverse (s : Sys) (id : String) (title : String)
    (L : List LogEntry) (hfile : alLookup s.files id = some (.task ⟨title, L⟩))
    (hsort : List.Sorted logLe L) (hne : id ≠ ".index") :
    (∀ t s1 s2, (∀ e ∈ L, e.start ≤ t) → clock_in s id t = .ok s1 →
      un_clock_in s1 id = .ok s2 →
      alLookup s2.files id = some (.task ⟨title, L⟩)) ∧
    (∀ ts s1 s2, clock_out s id ts = .ok s1 → un_clock_out s1 id = .ok s2 →
      alLookup s2.files id = some (.task ⟨title, L⟩)) := by
  have hsL : sortLog L = L := List.Sorted.insertionSort_eq hsort
  have hload : load s id = some ⟨id, ⟨title, L⟩⟩ := by
    have := load_of_file hfile
    rw [hsL] at this
    exact this
  constructor
  · intro t s1 s2 hts h1 h2
    have hci : clock_in s id t = save s ⟨id, ⟨title, L ++ [LogEntry.new t]⟩⟩ := by
      unfold clock_in
      rw [hload]
    rw [hci] at h1
    obtain ⟨_, _, hfiles1, _, _, _⟩ := save_ok_anatomy h1
    have hs1file : alLookup s1.files id
        = some (.task ⟨title, L ++ [LogEntry.new t]⟩) := by
      rw [hfiles1, alLookup_insert_ne _ _ _ _ hne, alLookup_insert_self]
    have hsorted2 : List.Sorted logLe (L ++ [LogEntry.new t]) := by
      refine List.pairwise_append.mpr ⟨hsort, List.pairwise_singleton _ _, ?_⟩
      intro a ha b hb
      rw [List.mem_singleton] at hb
      subst hb
      exact hts a ha
    have hsL2 : sortLog (L ++ [LogEntry.new t]) = L ++ [LogEntry.new t] :=
      List.Sorted.insertionSort_eq hsorted2
    have hload2 : load s1 id = some ⟨id, ⟨title, L ++ [LogEntry.new t]⟩⟩ := by
      have := load_of_file hs1file
      rw [hsL2] at this
      exact this
    have huci : un_clock_in s1 id = save s1 ⟨id, ⟨title, L⟩⟩ := by
      unfold un_clock_in
      rw [hload2]
      dsimp only
      rw [List.getLast?_concat]
      dsimp only [LogEntry.new]
      rw [List.dropLast_concat]
    rw [huci] at h2
    obtain ⟨_, _, hfiles2, _, _, _⟩ := save_ok_anatomy h2
    rw [hfiles2, alLookup_insert_ne _ _ _ _ hne, alLookup_insert_self]
  · intro ts s1 s2 h1 h2
    obtain ⟨d, e, hd, hg, he, hsave⟩ := clock_out_ok_anatomy h1
    have hdL : d = ⟨title, L⟩ := by
      have := hd.symm.trans hfile
      simpa using this
    subst hdL
    dsimp only at hg hsave
    rw [hsL] at hg hsave
    obtain ⟨L0, rfl⟩ := List.getLast?_eq_some_iff.mp hg
    rw [List.dropLast_concat] at hsave
    obtain ⟨_, _, hfiles1, _, _, _⟩ := save_ok_anatomy hsave
    have hs1file : alLookup s1.files id
        = some (.task ⟨title, L0 ++ [⟨e.start, some ts⟩]⟩) := by
      rw [hfiles1, alLookup_insert_ne _ _ _ _ hne, alLookup_insert_self]
    have hsorted1 : List.Sorted logLe (L0 ++ [(⟨e.start, some ts⟩ : LogEntry)]) := by
      have hdecomp := List.pairwise_append.mp hsort
      refine List.pairwise_append.mpr ⟨hdecomp.1, List.pairwise_singleton _ _, ?_⟩
      intro a ha b hb
      rw [List.mem_singleton] at hb
      subst hb
      exact hdecomp.2.2 a ha e (List.mem_singleton_self e)
    have hsL1 : sortLog (L0 ++ [(⟨e.start, some ts⟩ : LogEntry)])
        = L0 ++ [⟨e.start, some ts⟩] :=
      List.Sorted.insertionSort_eq hsorted1
    have hload1 : load s1 id = some ⟨id, ⟨title, L0 ++ [⟨e.start, some ts⟩]⟩⟩ := by
      have := load_of_file hs1file
      rw [hsL1] at this
      exact this
    have huco : un_clock_out s1 id = save s1 ⟨id, ⟨title, L0 ++ [⟨e.start, none⟩]⟩⟩ := by
      unfold un_clock_out
      rw [hload1]
      dsimp only
      rw [List.getLast?_concat]
      dsimp only
      rw [List.dropLast_concat]
    have he' : (⟨e.start, none⟩ : LogEntry) = e := by
      obtain ⟨st, sp⟩ := e
      dsimp only at he
      subst he
      rfl
    rw [he'] at huco
    rw [huco] at h2
    obtain ⟨_, _, hfiles2, _, _, _⟩ := save_ok_anatomy h2
    rw [hfiles2, alLookup_insert_ne _ _ _ _ hne, alLookup_insert_self]

/-- C3 witness: on a sorted one-entry log, clock-in at a later time then
un-clock-in restores the record. -/
theorem C3_amended_undo_inverse_witness :
    alLookup ((un_clock_in ((clock_in ⟨[("a", .task ⟨"T", [⟨1, some 2⟩]⟩)], [],
        fun _ => false, 0⟩ "a" 5).state) "a").state).files "a"
      = some (.task ⟨"T", [⟨1, some 2⟩]⟩) :=
  (C3_amended_undo_inverse ⟨[("a", .task ⟨"T", [⟨1, some 2⟩]⟩)], [], fun _ => false, 0⟩
      "a" "T" [⟨1, some 2⟩] (by rfl) (List.pairwise_singleton _ _) (by decide)).1
    5 _ _ (by decide) (by rfl) (by rfl)

end Dit
